import Mathlib

/-!
Verification development for the bullseye-pipeline volumetric label algebra
(`src/bullseye_pipeline/utils.py`).

The five components named by the specification are shallowly embedded here:

* `filter_labels`    — LabelFilterEngine (`utils.py:46`)
* `norm_dist_map`    — DistanceFieldBuilder (`utils.py:80`)
* `create_shells`    — ShellPartitioner (`utils.py:104`)
* `merge_labels_union` — LabelMerger, union mode (`utils.py:156`)
* `generate_wmparc`  — PropagationEngine (`utils.py:195`)

Modelling conventions:
* a 3-D volume of shape `nx × ny × nz` is a function `Fin nx × Fin ny × Fin nz → ℕ`
  (label volumes; samples are non-negative integers per the data model) or `→ ℚ`
  (distance fields; rationals stand for the float samples);
* numpy's `astype(np.int8)` / `astype(np.int16)` narrowing of non-negative values
  is the two's-complement reduction `toInt8` / `toInt16`;
* numpy fancy indexing `a[cond] = b` becomes a pointwise `if`;
* the sequential loops of the source become `List.foldl` over lists of indices
  enumerated in C (row-major / lexicographic) order, matching `np.argwhere`.
-/

set_option maxRecDepth 4000

namespace Bullseye

/-- Two's-complement reduction of a non-negative sample to numpy `int8`,
as performed by assignment into an `np.int8` array. -/
def toInt8 (k : ℕ) : ℤ := ((k + 128) % 256 : ℕ) - 128

/-- Two's-complement reduction of a non-negative sample to numpy `int16`,
as performed by `astype(np.int16)`. -/
def toInt16 (k : ℕ) : ℤ := ((k + 32768) % 65536 : ℕ) - 32768

/-- Evaluate an optional volume at one voxel. -/
def outAt {α β : Type} (r : Option (α → β)) (a : α) : Option β :=
  r.map fun f => f a

/-! ### LabelFilterEngine — `filter_labels` (`utils.py:46-77`)

`in_file` holds the source label volume, `include_superlist` the ordered group
list, `fixed_id` an optional singleton list holding the fixed representative,
`map_pairs_list` the optional ordered remap pairs.  The source indexes
`fixed_id[0]` and `labels_list[0]`; we model that subscript with `List.headD 0`
(the source presumes the lists non-empty).  The remap pass tests
`new_data == old_label` against the *grouped* output `new_data`, not against the
progressively remapped copy. -/

/-- Representative chosen for one group (`utils.py:58-61`). -/
def groupRep (fixed_id : Option (List ℕ)) (labels_list : List ℕ) : ℕ :=
  match fixed_id with
  | some f => f.headD 0
  | none => labels_list.headD 0

/-- Step 1 of `filter_labels`: group and relabel (`utils.py:57-63`). -/
def filterGrouped {α : Type} (in_data : α → ℕ) (include_superlist : List (List ℕ))
    (fixed_id : Option (List ℕ)) : α → ℕ :=
  include_superlist.foldl
    (fun new_data labels_list => fun v =>
      if in_data v ∈ labels_list then groupRep fixed_id labels_list else new_data v)
    (fun _ => 0)

/-- Step 2 of `filter_labels`: apply the remap pairs (`utils.py:66-72`);
each pair's condition reads the grouped output `new_data`. -/
def filterMapped {α : Type} (new_data : α → ℕ) (map_pairs_list : Option (List (ℕ × ℕ))) :
    α → ℕ :=
  match map_pairs_list with
  | none => new_data
  | some pairs =>
      pairs.foldl
        (fun mapped_data p => fun v =>
          if new_data v = p.1 then p.2 else mapped_data v)
        new_data

/-- `filter_labels` (`utils.py:46-77`): group/relabel, remap, then save with
`astype(np.int16)`. -/
def filter_labels {α : Type} (in_data : α → ℕ) (include_superlist : List (List ℕ))
    (fixed_id : Option (List ℕ)) (map_pairs_list : Option (List (ℕ × ℕ))) : α → ℤ :=
  fun v => toInt16 (filterMapped (filterGrouped in_data include_superlist fixed_id)
    map_pairs_list v)

/-! ### LabelMerger, union mode — `merge_labels` (`utils.py:156-166`)

The non-intersect branch: `out = np.zeros(shape, np.int8); out[:] = in1;
out[in2 > 0] = in2[in2 > 0]`.  Both assignments narrow the float samples to
`np.int8`. -/

/-- Union branch of `merge_labels` (`utils.py:156-166`). -/
def merge_labels_union {α : Type} (in1 in2 : α → ℕ) : α → ℤ :=
  fun v => if 0 < in2 v then toInt8 (in2 v) else toInt8 (in1 v)

/-! ### ShellPartitioner — `create_shells` (`utils.py:104-136`)

`limits = np.linspace(0, 1, n+1)`, one pass per shell label `i ∈ 1..n`
assigning `i` (narrowed to `np.int8`) where
`limits[i-1] <= ndist < limits[i]` (and inside the mask when one is given),
then the final override `out[np.isclose(ndist, 0.)] = 0`.
`np.isclose(x, 0.)` is `|x| ≤ atol + rtol*|0| = 1e-8`. -/

/-- Breakpoints `np.linspace(0, 1, n+1)`: `limits i = i / n`. -/
def limits (n_shells : ℕ) (i : ℕ) : ℚ := mkRat i n_shells

/-- `np.isclose(x, 0.)` with the default tolerances: `|x| ≤ 1e-8`. -/
def iscloseZero (x : ℚ) : Prop := |x| ≤ mkRat 1 100000000

instance (x : ℚ) : Decidable (iscloseZero x) := by unfold iscloseZero; infer_instance

/-- Membership test of one voxel in shell `i`'s write mask `mask2`
(`utils.py:124-126`): the half-open distance interval, intersected with the
restricting mask when one is supplied. -/
def shellCond {α : Type} (ndist : α → ℚ) (n_shells : ℕ) (mask : Option (α → ℕ))
    (i : ℕ) (v : α) : Prop :=
  limits n_shells (i - 1) ≤ ndist v ∧ ndist v < limits n_shells i ∧
    (match mask with
     | none => True
     | some m => 0 < m v)

instance {α : Type} (ndist : α → ℚ) (n_shells : ℕ) (mask : Option (α → ℕ))
    (i : ℕ) (v : α) : Decidable (shellCond ndist n_shells mask i v) := by
  unfold shellCond
  cases mask <;> infer_instance

/-- The shell-assignment loop of `create_shells` over `i ∈ 1..n`
(`utils.py:122-127`), starting from the all-zero `np.int8` output. -/
def shellLoop {α : Type} (ndist : α → ℚ) (n_shells : ℕ) (mask : Option (α → ℕ))
    (steps : ℕ) : α → ℤ :=
  (List.range steps).foldl
    (fun out i0 => fun v =>
      if shellCond ndist n_shells mask (i0 + 1) v then toInt8 (i0 + 1) else out v)
    (fun _ => 0)

/-- `create_shells` (`utils.py:104-136`): the shell loop followed by the
`np.isclose` zero override (`utils.py:128`). -/
def create_shells {α : Type} (ndist : α → ℚ) (n_shells : ℕ)
    (mask : Option (α → ℕ)) : α → ℤ :=
  fun v => if iscloseZero (ndist v) then 0 else shellLoop ndist n_shells mask n_shells v

/-! ### The voxel grid -/

/-- Index of one voxel of an `nx × ny × nz` grid. -/
abbrev Idx (nx ny nz : ℕ) : Type := Fin nx × Fin ny × Fin nz

/-- Squared Euclidean distance between two voxel indices (unit sampling, as in
the `distance_transform_edt` calls of `utils.py:93-94`). -/
def sqEuclid {nx ny nz : ℕ} (v u : Idx nx ny nz) : ℕ :=
  ((((v.1 : ℕ) : ℤ) - ((u.1 : ℕ) : ℤ)) ^ 2 +
   (((v.2.1 : ℕ) : ℤ) - ((u.2.1 : ℕ) : ℤ)) ^ 2 +
   (((v.2.2 : ℕ) : ℤ) - ((u.2.2 : ℕ) : ℤ)) ^ 2).toNat

/-- Squared Euclidean distance transform: squared distance from `v` to the
nearest voxel where the mask is on.  `distance_transform_edt(np.logical_not m)`
computes the (unsquared) pointwise root of this quantity whenever the mask is
non-empty; the all-empty mask is outside the modelled domain and yields the
junk value `0`. -/
def sqdistEDT {nx ny nz : ℕ} (m : Idx nx ny nz → Bool) (v : Idx nx ny nz) : ℕ :=
  WithTop.untop' 0 ((Finset.univ.filter (fun u => m u = true)).image (sqEuclid v)).min

/-- `astype(bool)` of a label volume: on where the sample is nonzero. -/
def boolMask {nx ny nz : ℕ} (vol : Idx nx ny nz → ℕ) : Idx nx ny nz → Bool :=
  fun v => vol v != 0

/-- `norm_dist_map` (`utils.py:80-102`): `dist_orig / (dist_orig + dist_dest)`
with `dist_orig`/`dist_dest` the Euclidean distance transforms of the negated
origin/destination masks.  When both distances are `0` (a voxel lying in both
masks) the float quotient is `0/0 = NaN`; that sample is modelled as `none`. -/
noncomputable def norm_dist_map {nx ny nz : ℕ} (orig dest : Idx nx ny nz → ℕ)
    (v : Idx nx ny nz) : Option ℝ :=
  if sqdistEDT (boolMask orig) v = 0 ∧ sqdistEDT (boolMask dest) v = 0 then none
  else some (Real.sqrt (sqdistEDT (boolMask orig) v) /
    (Real.sqrt (sqdistEDT (boolMask orig) v) + Real.sqrt (sqdistEDT (boolMask dest) v)))

/-! ### Neighbor offsets and indexing

`generate_binary_structure(3, 2)` is the set of offsets in `{-1,0,1}^3` whose
absolute coordinates sum to at most 2; `iterate_structure(conn, n)` dilates it
with itself `n - 1` times, i.e. forms the `n`-fold sumset.
`np.argwhere` enumerates an array in C order, so offset lists are enumerated
lexicographically.

Indexing an array at `idx + off` (`utils.py:279-285`) follows numpy semantics:
an axis coordinate `k` with `-n ≤ k < n` is accepted, negative values wrapping
around to `n + k`; anything else raises `IndexError`, which the `try/except`
turns into a skipped neighbor.  `binary_dilation` instead pads with zeros, so
the dilation of `utils.py:251` uses strict (non-wrapping) bounds. -/

/-- The integers `-c, …, c` in increasing order. -/
def intRange (c : ℕ) : List ℤ :=
  (List.range (2 * c + 1)).map (fun (k : ℕ) => (k : ℤ) - (c : ℤ))

/-- All offset triples in `[-c, c]^3`, lexicographic (C) order. -/
def offTriples (c : ℕ) : List (ℤ × ℤ × ℤ) :=
  (intRange c) ×ˢ ((intRange c) ×ˢ (intRange c))

/-- L1 norm of an offset triple. -/
def offL1 (v : ℤ × ℤ × ℤ) : ℕ := v.1.natAbs + v.2.1.natAbs + v.2.2.natAbs

/-- `generate_binary_structure(3, 2)` (`utils.py:204`) as a centered offset
list. -/
def baseStruct : List (ℤ × ℤ × ℤ) := (offTriples 1).filter (fun v => offL1 v ≤ 2)

/-- Membership in `iterate_structure(generate_binary_structure(3,2), c)`:
the `c`-fold sumset of `baseStruct`. -/
def memStruct : ℕ → ℤ × ℤ × ℤ → Bool
  | 0, v => v = (0, 0, 0)
  | c + 1, v =>
      baseStruct.any fun b => memStruct c (v.1 - b.1, v.2.1 - b.2.1, v.2.2 - b.2.2)

/-- Centered offsets of `iterate_structure(connectivity, c)` in the order
produced by `np.argwhere(...) - c` (`utils.py:274`). -/
def offList (c : ℕ) : List (ℤ × ℤ × ℤ) := (offTriples c).filter (memStruct c)

/-- Numpy indexing along one axis: accept `-n ≤ k < n`, wrapping negatives. -/
def npAxisIdx (n : ℕ) (i : Fin n) (d : ℤ) : Option (Fin n) :=
  if h : -(n : ℤ) ≤ ((i : ℕ) : ℤ) + d ∧ ((i : ℕ) : ℤ) + d < (n : ℤ) then
    some ⟨((((i : ℕ) : ℤ) + d) % (n : ℤ)).toNat, by
      have hi : (i : ℕ) < n := i.isLt
      have hn : 0 < (n : ℤ) := by omega
      have h1 : 0 ≤ (((i : ℕ) : ℤ) + d) % (n : ℤ) :=
        Int.emod_nonneg _ (by omega)
      have h2 : (((i : ℕ) : ℤ) + d) % (n : ℤ) < (n : ℤ) :=
        Int.emod_lt_of_pos _ hn
      omega⟩
  else none

/-- Strict indexing along one axis: accept `0 ≤ k < n` only (zero padding of
`binary_dilation`, and the bounds-checked iteration the spec asks for). -/
def strictAxisIdx (n : ℕ) (i : Fin n) (d : ℤ) : Option (Fin n) :=
  if h : 0 ≤ ((i : ℕ) : ℤ) + d ∧ ((i : ℕ) : ℤ) + d < (n : ℤ) then
    some ⟨(((i : ℕ) : ℤ) + d).toNat, by omega⟩
  else none

/-- Numpy indexing of the grid at `idx + off`. -/
def npIdx {nx ny nz : ℕ} (v : Idx nx ny nz) (off : ℤ × ℤ × ℤ) :
    Option (Idx nx ny nz) :=
  match npAxisIdx nx v.1 off.1, npAxisIdx ny v.2.1 off.2.1,
      npAxisIdx nz v.2.2 off.2.2 with
  | some a, some b, some c => some (a, b, c)
  | _, _, _ => none

/-- Strict (non-wrapping) indexing of the grid at `idx + off`. -/
def strictIdx {nx ny nz : ℕ} (v : Idx nx ny nz) (off : ℤ × ℤ × ℤ) :
    Option (Idx nx ny nz) :=
  match strictAxisIdx nx v.1 off.1, strictAxisIdx ny v.2.1 off.2.1,
      strictAxisIdx nz v.2.2 off.2.2 with
  | some a, some b, some c => some (a, b, c)
  | _, _, _ => none

/-- All voxel indices in C (lexicographic) order, as enumerated by
`np.argwhere`. -/
def lexIdx (nx ny nz : ℕ) : List (Idx nx ny nz) :=
  (List.finRange nx) ×ˢ ((List.finRange ny) ×ˢ (List.finRange nz))

/-! ### PropagationEngine — `generate_wmparc` (`utils.py:195-305`)

The engine's mutable data are the `DONE_mask`, the output array `out`, the
connectivity radius `its_conn` and the stream of printed diagnostics.  One
`engineStep` performs one pass through the body of the main `while` loop
(`utils.py:242-296`), with the inner connectivity-escalation loop unrolled to
one increment per step: if the wavefront is empty the step only increments
`its_conn`, otherwise it resolves the whole sorted wavefront.  `allDone` is the
loop guard `np.all(DONE_mask[proc_mask])`.  Running out of fuel before the
guard holds yields `none` (the program would still be looping). -/

/-- Diagnostics printed by the engine: the `except` print for a neighbor index
error (`utils.py:289`) and the no-labeled-neighbor print (`utils.py:293`),
each carrying the printed coordinates. -/
inductive Msg where
  | oob : ℤ → ℤ → ℤ → Msg
  | noNb : ℤ → ℤ → ℤ → Msg
deriving DecidableEq

/-- Inputs of `generate_wmparc`: inclusion volume, normalized distance map,
seed label volume (one shared grid shape, as the assert of `utils.py:211`
requires) and the optional `incl_labels` allow-list. -/
structure WmInput (nx ny nz : ℕ) where
  incl : Idx nx ny nz → ℕ
  nd : Idx nx ny nz → ℚ
  lab : Idx nx ny nz → ℕ
  inclLabels : Option (List ℕ)

/-- Engine state: `DONE_mask`, the (float, here ℕ-valued) output array `out`,
`its_conn`, and the diagnostics printed so far. -/
structure WmState (nx ny nz : ℕ) where
  done : Idx nx ny nz → Bool
  outp : Idx nx ny nz → ℕ
  conn : ℕ
  log : List Msg

variable {nx ny nz : ℕ}

/-- Inclusion mask (`utils.py:215-222`): `incl > 0`, or membership in
`incl_labels` when the allow-list is given. -/
def inclMaskB (inp : WmInput nx ny nz) (v : Idx nx ny nz) : Bool :=
  match inp.inclLabels with
  | none => decide (0 < inp.incl v)
  | some ls => decide (inp.incl v ∈ ls)

/-- `proc_mask` (`utils.py:230`): inclusion mask and `0 < ndist < 1`. -/
def procB (inp : WmInput nx ny nz) (v : Idx nx ny nz) : Bool :=
  (decide (0 < inp.nd v) && decide (inp.nd v < 1)) && inclMaskB inp v

/-- The loop guard `np.all(DONE_mask[proc_mask])` (`utils.py:242`). -/
def allDone (inp : WmInput nx ny nz) (s : WmState nx ny nz) : Prop :=
  ∀ v, procB inp v = true → s.done v = true

instance (inp : WmInput nx ny nz) (s : WmState nx ny nz) :
    Decidable (allDone inp s) := by unfold allDone; infer_instance

/-- One voxel of `binary_dilation(DONE_mask, iterate_structure(conn, its_conn))`
(`utils.py:251`); the structuring element is symmetric and the border is
zero-padded. -/
def dilB (s : WmState nx ny nz) (v : Idx nx ny nz) : Bool :=
  (offList s.conn).any fun off =>
    match strictIdx v off with
    | some j => s.done j
    | none => false

/-- `TODO_mask` (`utils.py:253`): dilated DONE, in the processing mask, not yet
done. -/
def todoB (inp : WmInput nx ny nz) (s : WmState nx ny nz) (v : Idx nx ny nz) :
    Bool :=
  (dilB s v && procB inp v) && !s.done v

/-- `np.argwhere(TODO_mask)` (`utils.py:264`): wavefront voxels in C order. -/
def todoList (inp : WmInput nx ny nz) (s : WmState nx ny nz) :
    List (Idx nx ny nz) :=
  (lexIdx nx ny nz).filter (todoB inp s)

/-- Insert one index into a list kept in descending key order. -/
def insertDesc (key : Idx nx ny nz → ℚ) (x : Idx nx ny nz) :
    List (Idx nx ny nz) → List (Idx nx ny nz)
  | [] => [x]
  | y :: ys => if key y ≤ key x then x :: y :: ys else y :: insertDesc key x ys

/-- Sort the wavefront by `ndist` in descending order (`utils.py:266-269`:
ascending `np.argsort` iterated reversed; `np.argsort`'s quicksort leaves the
order of equal keys unspecified, and this model fixes one order). -/
def sortDesc (key : Idx nx ny nz → ℚ) : List (Idx nx ny nz) → List (Idx nx ny nz)
  | [] => []
  | x :: xs => insertDesc key x (sortDesc key xs)

/-- One neighbor probe of the scan (`utils.py:274-291`): numpy indexing at
`idx + off`; an `IndexError` logs the diagnostic and skips, a DONE neighbor
with distance above the running maximum copies its output label into `idx`. -/
def scanNb (inp : WmInput nx ny nz) (idx : Idx nx ny nz)
    (acc : ℚ × WmState nx ny nz) (off : ℤ × ℤ × ℤ) : ℚ × WmState nx ny nz :=
  match npIdx idx off with
  | none =>
      (acc.1, { acc.2 with
        log := acc.2.log ++ [Msg.oob (((idx.1 : ℕ) : ℤ) + off.1)
          (((idx.2.1 : ℕ) : ℤ) + off.2.1) (((idx.2.2 : ℕ) : ℤ) + off.2.2)] })
  | some j =>
      if acc.2.done j = true then
        if acc.1 < inp.nd j then
          (inp.nd j, { acc.2 with
            outp := Function.update acc.2.outp idx (acc.2.outp j) })
        else acc
      else acc

/-- Resolution of one wavefront voxel (`utils.py:269-296`): scan all neighbor
offsets starting from `max_dist = -1`, print the no-neighbor diagnostic when
`max_dist` stayed negative, then mark the voxel DONE. -/
def voxStep (inp : WmInput nx ny nz) (s : WmState nx ny nz) (idx : Idx nx ny nz) :
    WmState nx ny nz :=
  let r := (offList s.conn).foldl (scanNb inp idx) (-1, s)
  let s1 :=
    if r.1 < 0 then
      { r.2 with log := r.2.log ++ [Msg.noNb ((idx.1 : ℕ) : ℤ)
        ((idx.2.1 : ℕ) : ℤ) ((idx.2.2 : ℕ) : ℤ)] }
    else r.2
  { s1 with done := Function.update s1.done idx true }

/-- One pass through the main loop body (`utils.py:242-296`): done → no change;
empty wavefront → escalate connectivity; otherwise resolve the whole wavefront
in descending-distance order. -/
def engineStep (inp : WmInput nx ny nz) (s : WmState nx ny nz) : WmState nx ny nz :=
  if allDone inp s then s
  else if todoList inp s = [] then { s with conn := s.conn + 1 }
  else (sortDesc inp.nd (todoList inp s)).foldl (voxStep inp) s

/-- Initial engine state (`utils.py:229-239`): `DONE_mask = label > 0`, output
zero except seed labels copied verbatim, `its_conn = 1`. -/
def initState (inp : WmInput nx ny nz) : WmState nx ny nz :=
  { done := fun v => decide (0 < inp.lab v)
    outp := fun v => if 0 < inp.lab v then inp.lab v else 0
    conn := 1
    log := [] }

/-- Engine state after `n` passes through the main loop body. -/
def wmparcState (inp : WmInput nx ny nz) (n : ℕ) : WmState nx ny nz :=
  (engineStep inp)^[n] (initState inp)

/-- `generate_wmparc` (`utils.py:195-305`) with the given fuel: when the loop
guard is satisfied within `fuel` passes, the output volume narrowed by
`astype(np.int16)` (`utils.py:302`); `none` when the engine is still looping. -/
def generate_wmparc (inp : WmInput nx ny nz) (fuel : ℕ) :
    Option (Idx nx ny nz → ℤ) :=
  if allDone inp (wmparcState inp fuel) then
    some fun v => toInt16 ((wmparcState inp fuel).outp v)
  else none

/-! ### Spec-modelled comparison variants of the engine

Two variants embody the spec's words rather than the source, for the
refinement-style claims:

* the *bounds-checked* variant (claim C3): "If a neighbor offset lands outside
  the grid bounds, skip that neighbor" — every neighbor probe whose target
  index is not within `0 ≤ k < n` on every axis is skipped (diagnostic logged),
  and never wraps around;
* the *round-start-reads* variant (claim C2): "reads are over the DONE set as
  of round start" — the DONE test of the neighbor scan consults the snapshot
  of `DONE_mask` taken when the round's wavefront was computed.

Both variants agree with `generate_wmparc` on everything else. -/

/-- Modelled from the spec: neighbor probe that skips any offset whose target
lies outside the grid bounds (no numpy wraparound). -/
def scanNbBounds (inp : WmInput nx ny nz) (idx : Idx nx ny nz)
    (acc : ℚ × WmState nx ny nz) (off : ℤ × ℤ × ℤ) : ℚ × WmState nx ny nz :=
  match strictIdx idx off with
  | none =>
      (acc.1, { acc.2 with
        log := acc.2.log ++ [Msg.oob (((idx.1 : ℕ) : ℤ) + off.1)
          (((idx.2.1 : ℕ) : ℤ) + off.2.1) (((idx.2.2 : ℕ) : ℤ) + off.2.2)] })
  | some j =>
      if acc.2.done j = true then
        if acc.1 < inp.nd j then
          (inp.nd j, { acc.2 with
            outp := Function.update acc.2.outp idx (acc.2.outp j) })
        else acc
      else acc

/-- Modelled from the spec: voxel resolution with bounds-checked neighbor
probes. -/
def voxStepBounds (inp : WmInput nx ny nz) (s : WmState nx ny nz)
    (idx : Idx nx ny nz) : WmState nx ny nz :=
  let r := (offList s.conn).foldl (scanNbBounds inp idx) (-1, s)
  let s1 :=
    if r.1 < 0 then
      { r.2 with log := r.2.log ++ [Msg.noNb ((idx.1 : ℕ) : ℤ)
        ((idx.2.1 : ℕ) : ℤ) ((idx.2.2 : ℕ) : ℤ)] }
    else r.2
  { s1 with done := Function.update s1.done idx true }

/-- Modelled from the spec: main-loop pass with bounds-checked neighbor
probes. -/
def engineStepBounds (inp : WmInput nx ny nz) (s : WmState nx ny nz) :
    WmState nx ny nz :=
  if allDone inp s then s
  else if todoList inp s = [] then { s with conn := s.conn + 1 }
  else (sortDesc inp.nd (todoList inp s)).foldl (voxStepBounds inp) s

/-- Modelled from the spec: `generate_wmparc` with bounds-checked neighbor
probes. -/
def generate_wmparc_bounds (inp : WmInput nx ny nz) (fuel : ℕ) :
    Option (Idx nx ny nz → ℤ) :=
  if allDone inp ((engineStepBounds inp)^[fuel] (initState inp)) then
    some fun v => toInt16 (((engineStepBounds inp)^[fuel] (initState inp)).outp v)
  else none

/-- Modelled from the spec: neighbor probe whose DONE test reads the round-start
snapshot `done0` instead of the current mask. -/
def scanNbFrozen (inp : WmInput nx ny nz) (done0 : Idx nx ny nz → Bool)
    (idx : Idx nx ny nz) (acc : ℚ × WmState nx ny nz) (off : ℤ × ℤ × ℤ) :
    ℚ × WmState nx ny nz :=
  match npIdx idx off with
  | none =>
      (acc.1, { acc.2 with
        log := acc.2.log ++ [Msg.oob (((idx.1 : ℕ) : ℤ) + off.1)
          (((idx.2.1 : ℕ) : ℤ) + off.2.1) (((idx.2.2 : ℕ) : ℤ) + off.2.2)] })
  | some j =>
      if done0 j = true then
        if acc.1 < inp.nd j then
          (inp.nd j, { acc.2 with
            outp := Function.update acc.2.outp idx (acc.2.outp j) })
        else acc
      else acc

/-- Modelled from the spec: voxel resolution over the round-start DONE set. -/
def voxStepFrozen (inp : WmInput nx ny nz) (done0 : Idx nx ny nz → Bool)
    (s : WmState nx ny nz) (idx : Idx nx ny nz) : WmState nx ny nz :=
  let r := (offList s.conn).foldl (scanNbFrozen inp done0 idx) (-1, s)
  let s1 :=
    if r.1 < 0 then
      { r.2 with log := r.2.log ++ [Msg.noNb ((idx.1 : ℕ) : ℤ)
        ((idx.2.1 : ℕ) : ℤ) ((idx.2.2 : ℕ) : ℤ)] }
    else r.2
  { s1 with done := Function.update s1.done idx true }

/-- Modelled from the spec: main-loop pass in which every wavefront voxel is
resolved against the DONE set as of round start. -/
def engineStepFrozen (inp : WmInput nx ny nz) (s : WmState nx ny nz) :
    WmState nx ny nz :=
  if allDone inp s then s
  else if todoList inp s = [] then { s with conn := s.conn + 1 }
  else (sortDesc inp.nd (todoList inp s)).foldl (voxStepFrozen inp s.done) s

/-- Modelled from the spec: `generate_wmparc` with round-start DONE reads. -/
def generate_wmparc_frozen (inp : WmInput nx ny nz) (fuel : ℕ) :
    Option (Idx nx ny nz → ℤ) :=
  if allDone inp ((engineStepFrozen inp)^[fuel] (initState inp)) then
    some fun v => toInt16 (((engineStepFrozen inp)^[fuel] (initState inp)).outp v)
  else none

/-! ### Concrete instances used by counterexamples and witnesses -/

/-- 1×1×1 input with an out-of-`int16`-range seed label and empty region. -/
def c1in : WmInput 1 1 1 :=
  { incl := fun _ => 0, nd := fun _ => mkRat 1 2, lab := fun _ => 40000,
    inclLabels := none }

/-- 4×1×1 input: seeds 5 (high distance end) and 7 (low distance end) with two
wavefront voxels between them, resolved in the same round. -/
def c2in : WmInput 4 1 1 :=
  { incl := fun _ => 1
    nd := fun v => [mkRat 9 10, mkRat 8 10, mkRat 7 10, mkRat 6 10].getD (v.1 : ℕ) 0
    lab := fun v => [5, 0, 0, 7].getD (v.1 : ℕ) 0
    inclLabels := none }

/-- 5×1×1 input: the single region voxel sits at x = 0; its in-bounds DONE
neighbor is x = 1 (label 7), while offset `-1` wraps around to the DONE voxel
x = 4 (label 9) with the larger distance value. -/
def c3in : WmInput 5 1 1 :=
  { incl := fun v => [1, 0, 0, 0, 0].getD (v.1 : ℕ) 0
    nd := fun v => [mkRat 3 10, mkRat 5 10, 0, 0, mkRat 9 10].getD (v.1 : ℕ) 0
    lab := fun v => [0, 7, 0, 0, 9].getD (v.1 : ℕ) 0
    inclLabels := none }

/-- 1×1×1 input with a non-empty region and no seed at all: the wavefront can
never become non-empty and the engine loops forever. -/
def c4in : WmInput 1 1 1 :=
  { incl := fun _ => 1, nd := fun _ => mkRat 1 2, lab := fun _ => 0,
    inclLabels := none }

/-- 3×1×1 input whose only region voxel has exactly one DONE neighbor, carrying
the distance value `-5`: the neighbor never beats `max_dist = -1`, so no DONE
neighbor is found. -/
def c5in : WmInput 3 1 1 :=
  { incl := fun v => [0, 1, 0].getD (v.1 : ℕ) 0
    nd := fun v => [(-5 : ℚ), mkRat 1 2, 0].getD (v.1 : ℕ) 0
    lab := fun v => [7, 0, 0].getD (v.1 : ℕ) 0
    inclLabels := none }

/-- 3×1×1 input like `c5in` but with distance `-1/2` at the seed: the scan
copies the seed's label 7 (since `-1/2 > -1`) even though `max_dist` ends
negative and the no-neighbor diagnostic fires. -/
def c5bad : WmInput 3 1 1 :=
  { incl := fun v => [0, 1, 0].getD (v.1 : ℕ) 0
    nd := fun v => [-mkRat 1 2, mkRat 1 2, 0].getD (v.1 : ℕ) 0
    lab := fun v => [7, 0, 0].getD (v.1 : ℕ) 0
    inclLabels := none }

/-- Origin volume for the C6 witness: on at `x = 0` of a 2×1×1 grid. -/
def c6orig : Idx 2 1 1 → ℕ := fun v => if (v.1 : ℕ) = 0 then 1 else 0

/-- Destination volume for the C6 witness: on at `x = 1` of a 2×1×1 grid. -/
def c6dest : Idx 2 1 1 → ℕ := fun v => if (v.1 : ℕ) = 1 then 1 else 0

/-- 2×1×1 input: a seed voxel plus one voxel outside the inclusion mask. -/
def c10in : WmInput 2 1 1 :=
  { incl := fun v => [1, 0].getD (v.1 : ℕ) 0
    nd := fun v => [mkRat 3 10, mkRat 1 2].getD (v.1 : ℕ) 0
    lab := fun v => [7, 0].getD (v.1 : ℕ) 0
    inclLabels := none }

/-! ### Supporting definitions for the claims -/

/-- Final value of `max_dist` after the neighbor scan of `idx`
(`utils.py:271-286`).  The code detects "no valid labeled neighbor found" by
`max_dist < 0.` (`utils.py:293`). -/
def scanMax (inp : WmInput nx ny nz) (s : WmState nx ny nz)
    (idx : Idx nx ny nz) : ℚ :=
  ((offList s.conn).foldl (scanNb inp idx) (-1, s)).1

/-- Every DONE voxel reached by a neighbor probe of `idx` carries a distance
value at most `-1`, the `max_dist` sentinel: the scan can copy nothing. -/
def negProbes (inp : WmInput nx ny nz) (s : WmState nx ny nz)
    (idx : Idx nx ny nz) : Prop :=
  ∀ off ∈ offList s.conn, ∀ j, npIdx idx off = some j → s.done j = true →
    inp.nd j ≤ -1

instance (inp : WmInput nx ny nz) (s : WmState nx ny nz) (idx : Idx nx ny nz) :
    Decidable (negProbes inp s idx) := by unfold negProbes; infer_instance

/-- Engine invariant maintained by every pass of the main loop: seed voxels are
DONE and hold their label in the output, not-DONE voxels still hold the
initialization value `0`, and DONE voxels are seeds or lie in the processing
mask. -/
def WmInv (inp : WmInput nx ny nz) (s : WmState nx ny nz) : Prop :=
  (∀ v, 0 < inp.lab v → s.done v = true) ∧
  (∀ v, 0 < inp.lab v → s.outp v = inp.lab v) ∧
  (∀ v, s.done v = false → s.outp v = 0) ∧
  (∀ v, s.done v = true → 0 < inp.lab v ∨ procB inp v = true)

/-- Number of processing-mask voxels not yet DONE (`region \ DONE`). -/
def undoneCount (inp : WmInput nx ny nz) (s : WmState nx ny nz) : ℕ :=
  (Finset.univ.filter (fun v => procB inp v = true ∧ s.done v = false)).card

/-- The sorted wavefront of the round that starts after `n` main-loop passes. -/
def roundList (inp : WmInput nx ny nz) (n : ℕ) : List (Idx nx ny nz) :=
  sortDesc inp.nd (todoList inp (wmparcState inp n))

/-- State seen by the `k`-th wavefront voxel of that round: the round-start
state after the first `k` voxels of the sorted wavefront have been resolved. -/
def midRound (inp : WmInput nx ny nz) (n k : ℕ) : WmState nx ny nz :=
  ((roundList inp n).take k).foldl (voxStep inp) (wmparcState inp n)

end Bullseye

namespace Bullseye

/-! ### Integer narrowing lemmas -/

theorem toInt8_small {k : ℕ} (h : k ≤ 127) : toInt8 k = k := by
  unfold toInt8
  have : k + 128 < 256 := by omega
  rw [Nat.mod_eq_of_lt this]
  push_cast
  ring

theorem toInt16_small {k : ℕ} (h : k ≤ 32767) : toInt16 k = k := by
  unfold toInt16
  have : k + 32768 < 65536 := by omega
  rw [Nat.mod_eq_of_lt this]
  push_cast
  ring

/-! ### Offset-list and index lemmas -/

theorem mem_intRange {c : ℕ} {z : ℤ} : z ∈ intRange c ↔ -(c : ℤ) ≤ z ∧ z ≤ c := by
  constructor
  · intro h
    obtain ⟨k, hk, he⟩ := List.mem_map.1 h
    rw [List.mem_range] at hk
    have he2 : (k : ℤ) - c = z := he
    omega
  · intro h
    exact List.mem_map.2 ⟨(z + c).toNat, List.mem_range.2 (by omega),
      show ((z + c).toNat : ℤ) - c = z by omega⟩

theorem mem_offTriples {c : ℕ} {v : ℤ × ℤ × ℤ} :
    v ∈ offTriples c ↔
      (-(c : ℤ) ≤ v.1 ∧ v.1 ≤ c) ∧ (-(c : ℤ) ≤ v.2.1 ∧ v.2.1 ≤ c) ∧
        (-(c : ℤ) ≤ v.2.2 ∧ v.2.2 ≤ c) := by
  obtain ⟨a, b, d⟩ := v
  simp [offTriples, List.mem_product, mem_intRange]

theorem mem_lexIdx {nx ny nz : ℕ} (v : Idx nx ny nz) : v ∈ lexIdx nx ny nz := by
  obtain ⟨a, b, c⟩ := v
  simp [lexIdx, List.mem_product, List.mem_finRange]

theorem lexIdx_nodup (nx ny nz : ℕ) : (lexIdx nx ny nz).Nodup :=
  (List.nodup_finRange nx).product
    ((List.nodup_finRange ny).product (List.nodup_finRange nz))

theorem offL1_mk (a b d : ℤ) : offL1 (a, b, d) = a.natAbs + b.natAbs + d.natAbs :=
  rfl

theorem memStruct_of_l1 : ∀ {c : ℕ} {v : ℤ × ℤ × ℤ},
    offL1 v ≤ c → memStruct c v = true := by
  intro c
  induction c with
  | zero =>
    rintro ⟨a, b, d⟩ h
    have ha : a = 0 := by simp only [offL1_mk] at h; omega
    have hb : b = 0 := by simp only [offL1_mk] at h; omega
    have hd : d = 0 := by simp only [offL1_mk] at h; omega
    subst ha; subst hb; subst hd; decide
  | succ c ih =>
    rintro ⟨a, b, d⟩ h
    show (baseStruct.any fun bb => memStruct c (a - bb.1, b - bb.2.1, d - bb.2.2)) = true
    rw [List.any_eq_true]
    by_cases h0 : offL1 (a, b, d) ≤ c
    · exact ⟨(0, 0, 0), by decide, by simpa using ih h0⟩
    · by_cases ha : a < 0
      · exact ⟨(-1, 0, 0), by decide, ih (by simp only [offL1_mk] at h h0 ⊢; omega)⟩
      · by_cases ha2 : 0 < a
        · exact ⟨(1, 0, 0), by decide, ih (by simp only [offL1_mk] at h h0 ⊢; omega)⟩
        · by_cases hb : b < 0
          · exact ⟨(0, -1, 0), by decide, ih (by simp only [offL1_mk] at h h0 ⊢; omega)⟩
          · by_cases hb2 : 0 < b
            · exact ⟨(0, 1, 0), by decide, ih (by simp only [offL1_mk] at h h0 ⊢; omega)⟩
            · by_cases hd : d < 0
              · exact ⟨(0, 0, -1), by decide, ih (by simp only [offL1_mk] at h h0 ⊢; omega)⟩
              · by_cases hd2 : 0 < d
                · exact ⟨(0, 0, 1), by decide, ih (by simp only [offL1_mk] at h h0 ⊢; omega)⟩
                · exact absurd (le_refl 0) (by simp only [offL1_mk] at h0; omega)

theorem mem_offList_of_l1 {c : ℕ} {v : ℤ × ℤ × ℤ} (h : offL1 v ≤ c) :
    v ∈ offList c := by
  rw [offList, List.mem_filter]
  refine ⟨mem_offTriples.2 ?_, memStruct_of_l1 h⟩
  unfold offL1 at h
  refine ⟨⟨?_, ?_⟩, ⟨?_, ?_⟩, ?_, ?_⟩ <;> omega

/-! ### Sorting lemmas -/

theorem insertDesc_perm {nx ny nz : ℕ} (key : Idx nx ny nz → ℚ) (x : Idx nx ny nz) :
    ∀ l : List (Idx nx ny nz), (insertDesc key x l).Perm (x :: l) := by
  intro l
  induction l with
  | nil => exact List.Perm.refl _
  | cons y ys ih =>
    show (if key y ≤ key x then x :: y :: ys else y :: insertDesc key x ys).Perm _
    by_cases h : key y ≤ key x
    · rw [if_pos h]
    · rw [if_neg h]
      exact (ih.cons y).trans (List.Perm.swap x y ys)

theorem sortDesc_perm {nx ny nz : ℕ} (key : Idx nx ny nz → ℚ) :
    ∀ l : List (Idx nx ny nz), (sortDesc key l).Perm l := by
  intro l
  induction l with
  | nil => exact List.Perm.refl _
  | cons x xs ih =>
    exact (insertDesc_perm key x (sortDesc key xs)).trans (ih.cons x)

theorem mem_sortDesc {nx ny nz : ℕ} {key : Idx nx ny nz → ℚ}
    {l : List (Idx nx ny nz)} {v : Idx nx ny nz} :
    v ∈ sortDesc key l ↔ v ∈ l :=
  (sortDesc_perm key l).mem_iff

theorem sortDesc_nodup {nx ny nz : ℕ} {key : Idx nx ny nz → ℚ}
    {l : List (Idx nx ny nz)} (h : l.Nodup) : (sortDesc key l).Nodup :=
  (sortDesc_perm key l).nodup_iff.2 h

/-! ### Effects of the neighbor scan and of voxel resolution -/

variable {nx ny nz : ℕ}

theorem scanNb_effects (inp : WmInput nx ny nz) (idx : Idx nx ny nz)
    (acc : ℚ × WmState nx ny nz) (off : ℤ × ℤ × ℤ) :
    (scanNb inp idx acc off).2.done = acc.2.done ∧
    (scanNb inp idx acc off).2.conn = acc.2.conn ∧
    (∀ v, v ≠ idx → (scanNb inp idx acc off).2.outp v = acc.2.outp v) ∧
    (∀ m, m ∈ acc.2.log → m ∈ (scanNb inp idx acc off).2.log) := by
  unfold scanNb
  cases hnp : npIdx idx off with
  | none =>
    refine ⟨rfl, rfl, fun _ _ => rfl, fun m hm => ?_⟩
    simp only [List.mem_append]
    exact Or.inl hm
  | some j =>
    simp only
    by_cases hd : acc.2.done j = true
    · rw [if_pos hd]
      by_cases hc : acc.1 < inp.nd j
      · rw [if_pos hc]
        refine ⟨rfl, rfl, fun v hv => ?_, fun m hm => hm⟩
        exact Function.update_noteq hv _ _
      · rw [if_neg hc]; exact ⟨rfl, rfl, fun _ _ => rfl, fun _ hm => hm⟩
    · rw [if_neg hd]; exact ⟨rfl, rfl, fun _ _ => rfl, fun _ hm => hm⟩

theorem scanFold_effects (inp : WmInput nx ny nz) (idx : Idx nx ny nz)
    (offs : List (ℤ × ℤ × ℤ)) : ∀ acc : ℚ × WmState nx ny nz,
    (offs.foldl (scanNb inp idx) acc).2.done = acc.2.done ∧
    (offs.foldl (scanNb inp idx) acc).2.conn = acc.2.conn ∧
    (∀ v, v ≠ idx → (offs.foldl (scanNb inp idx) acc).2.outp v = acc.2.outp v) ∧
    (∀ m, m ∈ acc.2.log → m ∈ (offs.foldl (scanNb inp idx) acc).2.log) := by
  induction offs with
  | nil => exact fun acc => ⟨rfl, rfl, fun _ _ => rfl, fun _ hm => hm⟩
  | cons o os ih =>
    intro acc
    obtain ⟨h1, h2, h3, h4⟩ := ih (scanNb inp idx acc o)
    obtain ⟨g1, g2, g3, g4⟩ := scanNb_effects inp idx acc o
    exact ⟨h1.trans g1, h2.trans g2,
      fun v hv => (h3 v hv).trans (g3 v hv),
      fun m hm => h4 m (g4 m hm)⟩

theorem voxStep_done (inp : WmInput nx ny nz) (s : WmState nx ny nz)
    (idx : Idx nx ny nz) :
    (voxStep inp s idx).done = Function.update s.done idx true := by
  have h := (scanFold_effects inp idx (offList s.conn) (-1, s)).1
  simp only [voxStep]
  split <;> simp [h]

theorem voxStep_conn (inp : WmInput nx ny nz) (s : WmState nx ny nz)
    (idx : Idx nx ny nz) : (voxStep inp s idx).conn = s.conn := by
  have h := (scanFold_effects inp idx (offList s.conn) (-1, s)).2.1
  simp only [voxStep]
  split <;> simp [h]

theorem voxStep_outp_ne (inp : WmInput nx ny nz) (s : WmState nx ny nz)
    (idx : Idx nx ny nz) {v : Idx nx ny nz} (hv : v ≠ idx) :
    (voxStep inp s idx).outp v = s.outp v := by
  have h := (scanFold_effects inp idx (offList s.conn) (-1, s)).2.2.1 v hv
  simp only [voxStep]
  split <;> simpa using h

theorem voxStep_log_mono (inp : WmInput nx ny nz) (s : WmState nx ny nz)
    (idx : Idx nx ny nz) {m : Msg} (hm : m ∈ s.log) :
    m ∈ (voxStep inp s idx).log := by
  have h := (scanFold_effects inp idx (offList s.conn) (-1, s)).2.2.2 m hm
  simp only [voxStep]
  split
  · simp only [List.mem_append]; exact Or.inl h
  · simpa using h

/-! ### Effects of resolving a whole wavefront -/

theorem roundFold_conn (inp : WmInput nx ny nz) (l : List (Idx nx ny nz)) :
    ∀ s : WmState nx ny nz, (l.foldl (voxStep inp) s).conn = s.conn := by
  induction l with
  | nil => exact fun _ => rfl
  | cons x xs ih =>
    intro s
    exact (ih (voxStep inp s x)).trans (voxStep_conn inp s x)

theorem roundFold_done_iff (inp : WmInput nx ny nz) (l : List (Idx nx ny nz)) :
    ∀ (s : WmState nx ny nz) (v : Idx nx ny nz),
    (l.foldl (voxStep inp) s).done v = true ↔ (s.done v = true ∨ v ∈ l) := by
  induction l with
  | nil => simp
  | cons x xs ih =>
    intro s v
    rw [List.foldl_cons, ih (voxStep inp s x) v, voxStep_done]
    by_cases hv : v = x
    · subst hv
      simp [Function.update_same]
    · rw [Function.update_noteq hv]
      simp [hv]

theorem roundFold_outp_notmem (inp : WmInput nx ny nz) (l : List (Idx nx ny nz)) :
    ∀ (s : WmState nx ny nz) {v : Idx nx ny nz}, v ∉ l →
    (l.foldl (voxStep inp) s).outp v = s.outp v := by
  induction l with
  | nil => exact fun _ _ _ => rfl
  | cons x xs ih =>
    intro s v hv
    rw [List.mem_cons] at hv
    push_neg at hv
    rw [List.foldl_cons, ih (voxStep inp s x) hv.2, voxStep_outp_ne inp s x hv.1]

theorem roundFold_log_mono (inp : WmInput nx ny nz) (l : List (Idx nx ny nz)) :
    ∀ (s : WmState nx ny nz) {m : Msg}, m ∈ s.log →
    m ∈ (l.foldl (voxStep inp) s).log := by
  induction l with
  | nil => exact fun _ _ hm => hm
  | cons x xs ih =>
    intro s m hm
    exact ih (voxStep inp s x) (voxStep_log_mono inp s x hm)

/-! ### Wavefront membership -/

theorem mem_todoList {inp : WmInput nx ny nz} {s : WmState nx ny nz}
    {v : Idx nx ny nz} : v ∈ todoList inp s ↔ todoB inp s v = true := by
  rw [todoList, List.mem_filter]
  simp [mem_lexIdx]

theorem todoB_eq_true {inp : WmInput nx ny nz} {s : WmState nx ny nz}
    {v : Idx nx ny nz} :
    todoB inp s v = true ↔
      (dilB s v = true ∧ procB inp v = true) ∧ s.done v = false := by
  simp [todoB, Bool.and_eq_true, Bool.not_eq_true']

theorem todoList_nodup (inp : WmInput nx ny nz) (s : WmState nx ny nz) :
    (todoList inp s).Nodup :=
  (lexIdx_nodup nx ny nz).filter _

/-! ### The engine invariant -/

theorem wmInv_init (inp : WmInput nx ny nz) : WmInv inp (initState inp) := by
  refine ⟨fun v hv => ?_, fun v hv => ?_, fun v hv => ?_, fun v hv => ?_⟩
  · simp [initState, hv]
  · simp [initState, hv]
  · simp only [initState, decide_eq_false_iff_not, not_lt] at hv ⊢
    rw [if_neg (by omega)]
  · simp only [initState, decide_eq_true_eq] at hv
    exact Or.inl hv

theorem wmInv_engineStep (inp : WmInput nx ny nz) (s : WmState nx ny nz)
    (h : WmInv inp s) : WmInv inp (engineStep inp s) := by
  unfold engineStep
  by_cases h1 : allDone inp s
  · rw [if_pos h1]; exact h
  · rw [if_neg h1]
    by_cases h2 : todoList inp s = []
    · rw [if_pos h2]; exact h
    · rw [if_neg h2]
      have hmem : ∀ v ∈ sortDesc inp.nd (todoList inp s), todoB inp s v = true :=
        fun v hv => mem_todoList.1 (mem_sortDesc.1 hv)
      obtain ⟨i1, i2, i3, i4⟩ := h
      refine ⟨fun v hv => ?_, fun v hv => ?_, fun v hv => ?_, fun v hv => ?_⟩
      · exact (roundFold_done_iff inp _ s v).2 (Or.inl (i1 v hv))
      · have hnot : v ∉ sortDesc inp.nd (todoList inp s) := by
          intro hm
          have := (todoB_eq_true.1 (hmem v hm)).2
          rw [i1 v hv] at this
          simp at this
        rw [roundFold_outp_notmem inp _ s hnot]
        exact i2 v hv
      · have hfalse : ¬ (s.done v = true ∨ v ∈ sortDesc inp.nd (todoList inp s)) := by
          intro hor
          rw [(roundFold_done_iff inp _ s v).2 hor] at hv
          simp at hv
        push_neg at hfalse
        rw [roundFold_outp_notmem inp _ s hfalse.2]
        exact i3 v (Bool.not_eq_true _ ▸ hfalse.1)
      · rcases (roundFold_done_iff inp _ s v).1 hv with hd | hm
        · exact i4 v hd
        · exact Or.inr (todoB_eq_true.1 (hmem v hm)).1.2

theorem wmInv_state (inp : WmInput nx ny nz) : ∀ n, WmInv inp (wmparcState inp n) := by
  intro n
  induction n with
  | zero => exact wmInv_init inp
  | succ n ih =>
    rw [wmparcState, Function.iterate_succ_apply']
    exact wmInv_engineStep inp _ ih

/-! ### An empty DONE set never grows -/

theorem dilB_of_all_not_done {s : WmState nx ny nz}
    (h : ∀ j, s.done j = false) (v : Idx nx ny nz) : dilB s v = false := by
  rw [dilB, List.any_eq_false]
  intro off _
  cases hs : strictIdx v off with
  | none => simp [hs]
  | some j => simp [hs, h j]

theorem todoList_eq_nil_of_all_not_done {inp : WmInput nx ny nz}
    {s : WmState nx ny nz} (h : ∀ j, s.done j = false) : todoList inp s = [] := by
  rw [todoList, List.filter_eq_nil_iff]
  intro v _
  simp [todoB, dilB_of_all_not_done h v]

theorem c4_done : ∀ n, ∀ v, (wmparcState c4in n).done v = false := by
  intro n
  induction n with
  | zero => intro v; simp [wmparcState, initState, c4in]
  | succ n ih =>
    intro v
    rw [wmparcState, Function.iterate_succ_apply', ← wmparcState]
    have hA : ¬ allDone c4in (wmparcState c4in n) := by
      intro hA
      have h0 := hA ((0 : Fin 1), 0, 0) (by decide)
      rw [ih ((0 : Fin 1), 0, 0)] at h0
      simp at h0
    rw [engineStep, if_neg hA, if_pos (todoList_eq_nil_of_all_not_done ih)]
    exact ih v

theorem c4_none : ∀ n, generate_wmparc c4in n = none := by
  intro n
  rw [generate_wmparc, if_neg]
  intro hA
  have h0 := hA ((0 : Fin 1), 0, 0) (by decide)
  rw [c4_done n ((0 : Fin 1), 0, 0)] at h0
  simp at h0

/-! ### Escalation coverage: once the connectivity radius reaches the sum of
the grid dimensions, the dilation of a non-empty DONE set covers the grid -/

theorem strictAxisIdx_sub {n : ℕ} (i p : Fin n) :
    strictAxisIdx n i (((p : ℕ) : ℤ) - ((i : ℕ) : ℤ)) = some p := by
  unfold strictAxisIdx
  have hp := p.isLt
  rw [dif_pos (by constructor <;> omega)]
  congr 1
  apply Fin.ext
  simp

theorem strictIdx_sub (u p : Idx nx ny nz) :
    strictIdx u (((p.1 : ℕ) : ℤ) - ((u.1 : ℕ) : ℤ),
      ((p.2.1 : ℕ) : ℤ) - ((u.2.1 : ℕ) : ℤ),
      ((p.2.2 : ℕ) : ℤ) - ((u.2.2 : ℕ) : ℤ)) = some p := by
  rw [strictIdx, strictAxisIdx_sub, strictAxisIdx_sub, strictAxisIdx_sub]

theorem dilB_of_big_conn {s : WmState nx ny nz} {p u : Idx nx ny nz}
    (hp : s.done p = true) (hc : nx + ny + nz ≤ s.conn) : dilB s u = true := by
  rw [dilB, List.any_eq_true]
  refine ⟨(((p.1 : ℕ) : ℤ) - ((u.1 : ℕ) : ℤ),
      ((p.2.1 : ℕ) : ℤ) - ((u.2.1 : ℕ) : ℤ),
      ((p.2.2 : ℕ) : ℤ) - ((u.2.2 : ℕ) : ℤ)), mem_offList_of_l1 ?_, ?_⟩
  · rw [offL1_mk]
    have h1 := p.1.isLt
    have h2 := u.1.isLt
    have h3 := p.2.1.isLt
    have h4 := u.2.1.isLt
    have h5 := p.2.2.isLt
    have h6 := u.2.2.isLt
    omega
  · rw [strictIdx_sub]
    simp [hp]

theorem todoB_of_big_conn {inp : WmInput nx ny nz} {s : WmState nx ny nz}
    {p u : Idx nx ny nz} (hp : s.done p = true) (hu : procB inp u = true)
    (hud : s.done u = false) (hc : nx + ny + nz ≤ s.conn) :
    todoB inp s u = true :=
  todoB_eq_true.2 ⟨⟨dilB_of_big_conn hp hc, hu⟩, hud⟩

/-! ### Termination with a non-empty DONE set -/

theorem wm_term_aux (inp : WmInput nx ny nz) :
    ∀ (k : ℕ) (s : WmState nx ny nz),
      undoneCount inp s * (nx + ny + nz + 1) + (nx + ny + nz + 1 - s.conn) ≤ k →
      (∃ p, s.done p = true) →
      ∃ n, allDone inp ((engineStep inp)^[n] s) := by
  intro k
  induction k with
  | zero =>
    intro s hk hpe
    by_cases hA : allDone inp s
    · exact ⟨0, hA⟩
    · exfalso
      rw [allDone] at hA
      push_neg at hA
      obtain ⟨u, hu1, hu2⟩ := hA
      have hu2' : s.done u = false := by revert hu2; cases s.done u <;> simp
      have hpos : 0 < undoneCount inp s :=
        Finset.card_pos.2 ⟨u, Finset.mem_filter.2 ⟨Finset.mem_univ u, hu1, hu2'⟩⟩
      have hge := Nat.le_mul_of_pos_left (nx + ny + nz + 1) hpos
      omega
  | succ k ih =>
    intro s hk hpe
    by_cases hA : allDone inp s
    · exact ⟨0, hA⟩
    · have hex : ∃ u, procB inp u = true ∧ s.done u = false := by
        rw [allDone] at hA
        push_neg at hA
        obtain ⟨u, hu1, hu2⟩ := hA
        exact ⟨u, hu1, by revert hu2; cases s.done u <;> simp⟩
      obtain ⟨u, hu1, hu2⟩ := hex
      obtain ⟨p, hpd⟩ := hpe
      by_cases hT : todoList inp s = []
      · have hcs : s.conn < nx + ny + nz := by
          by_contra hge
          push_neg at hge
          have hmem := mem_todoList.2 (todoB_of_big_conn hpd hu1 hu2 hge)
          rw [hT] at hmem
          simp at hmem
        have hstep : engineStep inp s = { s with conn := s.conn + 1 } := by
          rw [engineStep, if_neg hA, if_pos hT]
        have hueq : undoneCount inp { s with conn := s.conn + 1 } =
            undoneCount inp s := rfl
        obtain ⟨n, hn⟩ := ih { s with conn := s.conn + 1 }
          (by rw [hueq]; simp only; omega) ⟨p, hpd⟩
        exact ⟨n + 1, by rw [Function.iterate_succ_apply, hstep]; exact hn⟩
      · have hstep : engineStep inp s =
            (sortDesc inp.nd (todoList inp s)).foldl (voxStep inp) s := by
          rw [engineStep, if_neg hA, if_neg hT]
        obtain ⟨t, ht⟩ := List.exists_mem_of_ne_nil _ hT
        have ht2 := todoB_eq_true.1 (mem_todoList.1 ht)
        have htdone :
            ((sortDesc inp.nd (todoList inp s)).foldl (voxStep inp) s).done t = true :=
          (roundFold_done_iff inp _ s t).2 (Or.inr (mem_sortDesc.2 ht))
        have hsub : Finset.univ.filter (fun v => procB inp v = true ∧
              ((sortDesc inp.nd (todoList inp s)).foldl (voxStep inp) s).done v = false) ⊂
            Finset.univ.filter (fun v => procB inp v = true ∧ s.done v = false) := by
          constructor
          · intro v hv
            rw [Finset.mem_filter] at hv ⊢
            refine ⟨hv.1, hv.2.1, ?_⟩
            by_contra hdd
            have hdt : s.done v = true := by revert hdd; cases s.done v <;> simp
            have h2 := (roundFold_done_iff inp
              (sortDesc inp.nd (todoList inp s)) s v).2 (Or.inl hdt)
            rw [h2] at hv
            simpa using hv.2.2
          · intro hsup
            have hmem2 := hsup (Finset.mem_filter.2
              ⟨Finset.mem_univ t, ht2.1.2, ht2.2⟩)
            rw [Finset.mem_filter, htdone] at hmem2
            simpa using hmem2.2.2
        have hlt : undoneCount inp
            ((sortDesc inp.nd (todoList inp s)).foldl (voxStep inp) s) <
            undoneCount inp s := Finset.card_lt_card hsub
        have hconn : ((sortDesc inp.nd (todoList inp s)).foldl (voxStep inp) s).conn =
            s.conn := roundFold_conn inp _ s
        have hmeas : undoneCount inp
              ((sortDesc inp.nd (todoList inp s)).foldl (voxStep inp) s) *
              (nx + ny + nz + 1) +
            (nx + ny + nz + 1 -
              ((sortDesc inp.nd (todoList inp s)).foldl (voxStep inp) s).conn) ≤ k := by
          rw [hconn]
          have h5 := Nat.mul_le_mul_right (nx + ny + nz + 1) hlt
          rw [Nat.succ_mul] at h5
          omega
        obtain ⟨n, hn⟩ := ih _ hmeas ⟨t, htdone⟩
        exact ⟨n + 1, by rw [Function.iterate_succ_apply, hstep]; exact hn⟩

/-! ### Scans that can copy nothing -/

theorem scanFold_allneg (inp : WmInput nx ny nz) (idx : Idx nx ny nz)
    (d0 : Idx nx ny nz → Bool) :
    ∀ (offs : List (ℤ × ℤ × ℤ)) (acc : ℚ × WmState nx ny nz),
    acc.1 = -1 → acc.2.done = d0 →
    (∀ off ∈ offs, ∀ j, npIdx idx off = some j → d0 j = true → inp.nd j ≤ -1) →
    (offs.foldl (scanNb inp idx) acc).1 = -1 ∧
    (offs.foldl (scanNb inp idx) acc).2.outp = acc.2.outp := by
  intro offs
  induction offs with
  | nil => exact fun _ h _ _ => ⟨h, rfl⟩
  | cons o os ih =>
    intro acc h1 hd hno
    have hstep : (scanNb inp idx acc o).1 = acc.1 ∧
        (scanNb inp idx acc o).2.outp = acc.2.outp := by
      unfold scanNb
      cases hnp : npIdx idx o with
      | none => exact ⟨rfl, rfl⟩
      | some j =>
        simp only
        by_cases hdj : acc.2.done j = true
        · have hle := hno o (List.mem_cons_self o os) j hnp (hd ▸ hdj)
          rw [if_pos hdj, if_neg (by rw [h1]; exact not_lt.2 hle)]
          exact ⟨rfl, rfl⟩
        · rw [if_neg hdj]
          exact ⟨rfl, rfl⟩
    rw [List.foldl_cons]
    obtain ⟨g1, g2⟩ := hstep
    obtain ⟨f1, f2⟩ := ih (scanNb inp idx acc o) (g1.trans h1)
      ((scanNb_effects inp idx acc o).1.trans hd)
      (fun off hoff => hno off (List.mem_cons_of_mem o hoff))
    exact ⟨f1, f2.trans g2⟩

theorem voxStep_msg_of_neg (inp : WmInput nx ny nz) (s : WmState nx ny nz)
    (idx : Idx nx ny nz) (h : scanMax inp s idx < 0) :
    Msg.noNb ((idx.1 : ℕ) : ℤ) ((idx.2.1 : ℕ) : ℤ) ((idx.2.2 : ℕ) : ℤ) ∈
      (voxStep inp s idx).log := by
  rw [scanMax] at h
  simp only [voxStep, if_pos h]
  simp

theorem voxStep_outp_of_negProbes (inp : WmInput nx ny nz) (s : WmState nx ny nz)
    (idx : Idx nx ny nz) (h : negProbes inp s idx) :
    (voxStep inp s idx).outp = s.outp := by
  have hsf := scanFold_allneg inp idx s.done (offList s.conn) (-1, s) rfl rfl h
  have hcond : ((offList s.conn).foldl (scanNb inp idx) (-1, s)).1 < 0 := by
    rw [hsf.1]
    norm_num
  simp only [voxStep, if_pos hcond]
  exact hsf.2

theorem get_notmem_take_drop {α : Type} (L : List α) (hnd : L.Nodup) (k : ℕ)
    (hk : k < L.length) :
    L.get ⟨k, hk⟩ ∉ L.take k ∧ L.get ⟨k, hk⟩ ∉ L.drop (k + 1) := by
  have hL : L.take k ++ L.get ⟨k, hk⟩ :: L.drop (k + 1) = L := by
    rw [List.get_eq_getElem, ← List.drop_eq_getElem_cons hk, List.take_append_drop]
  rw [← hL] at hnd
  obtain ⟨nd1, nd2, disj⟩ := List.nodup_append.1 hnd
  exact ⟨fun hmem => (disj hmem) (List.mem_cons_self _ _),
    (List.nodup_cons.1 nd2).1⟩

/-! ## Claims about the PropagationEngine -/

/-- C1 (amended): for every input triple and every voxel whose seed label is
nonzero, the engine's output at that voxel is exactly the seed label narrowed
by the final `astype(np.int16)`; in particular it equals the seed label itself
whenever that label fits in 16-bit range.  Seeds are copied before the main
loop and no propagation round ever writes over them. -/
theorem claim_C1_theorem (inp : WmInput nx ny nz) (fuel : ℕ) (v : Idx nx ny nz)
    (z : ℤ) (hlab : 0 < inp.lab v)
    (hout : outAt (generate_wmparc inp fuel) v = some z) :
    z = toInt16 (inp.lab v) ∧ (inp.lab v ≤ 32767 → z = (inp.lab v : ℤ)) := by
  rw [generate_wmparc] at hout
  by_cases hA : allDone inp (wmparcState inp fuel)
  · rw [if_pos hA] at hout
    have hz : toInt16 ((wmparcState inp fuel).outp v) = z := by
      simpa [outAt] using hout
    rw [(wmInv_state inp fuel).2.1 v hlab] at hz
    refine ⟨hz.symm, fun hle => ?_⟩
    rw [← hz, toInt16_small hle]
  · rw [if_neg hA] at hout
    simp [outAt] at hout

/-- C1 (counterexample to the claim as stated): the seed label 40000 is copied
verbatim into the float output array but the saved volume holds its 16-bit
reduction `-25536`, not the "exact seed value". -/
theorem claim_C1_counterexample :
    0 < c1in.lab ((0 : Fin 1), 0, 0) ∧
    outAt (generate_wmparc c1in 0) ((0 : Fin 1), 0, 0) = some (-25536) ∧
    ((-25536 : ℤ) ≠ (c1in.lab ((0 : Fin 1), 0, 0) : ℤ)) := by
  refine ⟨by decide, by decide, by decide⟩

/-- C1 (witness): a seed label 7 that fits `int16` comes out exactly. -/
theorem claim_C1_witness :
    0 < c10in.lab ((0 : Fin 2), 0, 0) ∧
    outAt (generate_wmparc c10in 1) ((0 : Fin 2), 0, 0) = some 7 ∧
    ((7 : ℤ) = toInt16 (c10in.lab ((0 : Fin 2), 0, 0)) ∧
      (c10in.lab ((0 : Fin 2), 0, 0) ≤ 32767 →
        (7 : ℤ) = (c10in.lab ((0 : Fin 2), 0, 0) : ℤ))) :=
  ⟨by decide, by decide,
    claim_C1_theorem c10in 1 ((0 : Fin 2), 0, 0) 7 (by decide) (by decide)⟩

/-- C2 (amended): wavefront voxels are resolved sequentially; the state in
which the voxel after the first `fr.length` wavefront entries is resolved is
exactly the fold of `voxStep` over that earlier portion `fr`, and its DONE set
is the round-start DONE set extended with precisely the voxels of `fr` — so a
resolution may read voxels resolved earlier in the *same* round, not only the
round-start DONE set. -/
theorem claim_C2_theorem (inp : WmInput nx ny nz) (n : ℕ)
    (fr rest : List (Idx nx ny nz)) (v : Idx nx ny nz)
    (hsplit : roundList inp n = fr ++ v :: rest) :
    midRound inp n fr.length = fr.foldl (voxStep inp) (wmparcState inp n) ∧
    ∀ u, ((midRound inp n fr.length).done u = true ↔
      ((wmparcState inp n).done u = true ∨ u ∈ fr)) := by
  have hmid : midRound inp n fr.length =
      fr.foldl (voxStep inp) (wmparcState inp n) := by
    rw [midRound, hsplit, List.take_left]
  exact ⟨hmid, fun u => by rw [hmid]; exact roundFold_done_iff inp fr _ u⟩

/-- C2 (counterexample to the claim as stated): on `c2in` the engine assigns
label 5 to voxel `x = 2`, copied from voxel `x = 1` which was resolved earlier
in the same round; the spec-modelled engine whose reads are over the DONE set
as of round start assigns 7 instead. -/
theorem claim_C2_counterexample :
    outAt (generate_wmparc c2in 2) ((2 : Fin 4), 0, 0) = some 5 ∧
    outAt (generate_wmparc_frozen c2in 2) ((2 : Fin 4), 0, 0) = some 7 ∧
    ((5 : ℤ) ≠ 7) := by
  refine ⟨by decide, by decide, by decide⟩

/-- C2 (witness): the round of `c2in` splits as `[x1] ++ x2 :: []`, and the
state in which `x2` is resolved has exactly `{seeds} ∪ {x1}` as DONE set. -/
theorem claim_C2_witness :
    roundList c2in 0 = [((1 : Fin 4), 0, 0)] ++ ((2 : Fin 4), 0, 0) :: [] ∧
    (midRound c2in 0 1 =
      [((1 : Fin 4), 0, 0)].foldl (voxStep c2in) (wmparcState c2in 0) ∧
    ∀ u, ((midRound c2in 0 1).done u = true ↔
      ((wmparcState c2in 0).done u = true ∨ u ∈ [((1 : Fin 4), 0, 0)]))) :=
  ⟨by decide,
    claim_C2_theorem c2in 0 [((1 : Fin 4), 0, 0)] [] ((2 : Fin 4), 0, 0) (by decide)⟩

/-- C3 (code bug, evaluated at the failing input): on `c3in` the region voxel
`x = 0` probes offset `-1`; numpy wraps the index to the far voxel `x = 4`
(label 9, distance 0.9) instead of raising, so the engine copies label 9 from
across the grid.  The spec-modelled bounds-checked engine skips every
out-of-bounds probe and copies label 7 from the true neighbor `x = 1`.
Offsets that exceed the upper bound are caught and logged (the `(0, 1, 0)`
probe of `x = 0` leaves an `IndexError` diagnostic). -/
theorem claim_C3_theorem :
    outAt (generate_wmparc c3in 2) ((0 : Fin 5), 0, 0) = some 9 ∧
    c3in.lab ((4 : Fin 5), 0, 0) = 9 ∧
    outAt (generate_wmparc_bounds c3in 2) ((0 : Fin 5), 0, 0) = some 7 ∧
    Msg.oob 0 1 0 ∈ (wmparcState c3in 2).log ∧
    ((9 : ℤ) ≠ 7) := by
  refine ⟨by decide, by decide, by decide, by decide, by decide⟩

/-- C4 (amended): the engine terminates on every input whose seed volume has at
least one nonzero voxel, and on every input with an empty processing region;
each completed round marks at least one region voxel DONE, and once the
connectivity radius reaches the sum of the grid dimensions a non-empty DONE set
always yields a non-empty wavefront. -/
theorem claim_C4_theorem (inp : WmInput nx ny nz)
    (h : (∃ v, 0 < inp.lab v) ∨ (∀ v, procB inp v = false)) :
    ∃ n, (generate_wmparc inp n).isSome = true := by
  rcases h with ⟨v, hv⟩ | hreg
  · have hd : (initState inp).done v = true := by simp [initState, hv]
    obtain ⟨n, hn⟩ := wm_term_aux inp
      (undoneCount inp (initState inp) * (nx + ny + nz + 1) +
        (nx + ny + nz + 1 - (initState inp).conn))
      (initState inp) le_rfl ⟨v, hd⟩
    refine ⟨n, ?_⟩
    rw [generate_wmparc, if_pos (by rw [wmparcState]; exact hn)]
    rfl
  · refine ⟨0, ?_⟩
    rw [generate_wmparc, if_pos ?_]
    · rfl
    · intro v hv
      rw [hreg v] at hv
      simp at hv

/-- C4 (counterexample to the claim as stated): with no seed voxel at all and a
non-empty region, the DONE set stays empty, its dilation stays empty, the
wavefront is empty at every connectivity radius, and the engine never
terminates: no amount of fuel makes it produce an output. -/
theorem claim_C4_counterexample :
    (∃ n, (generate_wmparc c4in n).isSome = true) ↔ False :=
  iff_false_intro (fun ⟨n, hn⟩ => by rw [c4_none n] at hn; simp at hn)

/-- C4 (witness): an input with one seed voxel terminates. -/
theorem claim_C4_witness :
    ((∃ v, 0 < c10in.lab v) ∨ (∀ v : Idx 2 1 1, procB c10in v = false)) ∧
    (∃ n, (generate_wmparc c10in n).isSome = true) :=
  ⟨Or.inl ⟨((0 : Fin 2), 0, 0), by decide⟩,
    claim_C4_theorem c10in (Or.inl ⟨((0 : Fin 2), 0, 0), by decide⟩)⟩

/-- C5 (amended): a wavefront voxel whose neighbor scan ends with
`max_dist < 0` — the code's detector of "no valid labeled neighbor found" — is
still marked DONE by the end of its round, the no-neighbor diagnostic carrying
its coordinates is printed, and the engine continues (the round is a total
function that completes); its output value moreover stays `0` (the
initialization value) provided every DONE voxel its scan probes carries a
distance value at most `-1`, so that the scan copies nothing. -/
theorem claim_C5_theorem (inp : WmInput nx ny nz) (n k : ℕ)
    (hA : ¬ allDone inp (wmparcState inp n))
    (hk : k < (roundList inp n).length)
    (hFail : scanMax inp (midRound inp n k) ((roundList inp n).get ⟨k, hk⟩) < 0) :
    (wmparcState inp (n + 1)).done ((roundList inp n).get ⟨k, hk⟩) = true ∧
    Msg.noNb ((((roundList inp n).get ⟨k, hk⟩).1 : ℕ) : ℤ)
      ((((roundList inp n).get ⟨k, hk⟩).2.1 : ℕ) : ℤ)
      ((((roundList inp n).get ⟨k, hk⟩).2.2 : ℕ) : ℤ) ∈
      (wmparcState inp (n + 1)).log ∧
    (negProbes inp (midRound inp n k) ((roundList inp n).get ⟨k, hk⟩) →
      (wmparcState inp (n + 1)).outp ((roundList inp n).get ⟨k, hk⟩) = 0) := by
  have hTne : todoList inp (wmparcState inp n) ≠ [] := by
    intro h0
    rw [roundList, h0] at hk
    simp [sortDesc] at hk
  have hstep : wmparcState inp (n + 1) =
      (roundList inp n).foldl (voxStep inp) (wmparcState inp n) := by
    rw [wmparcState, Function.iterate_succ_apply', ← wmparcState]
    rw [engineStep, if_neg hA, if_neg hTne]
    rfl
  have hL : (roundList inp n).take k ++
      (roundList inp n).get ⟨k, hk⟩ :: (roundList inp n).drop (k + 1) =
      roundList inp n := by
    rw [List.get_eq_getElem, ← List.drop_eq_getElem_cons hk, List.take_append_drop]
  have hnd : (roundList inp n).Nodup := by
    rw [roundList]
    exact sortDesc_nodup (todoList_nodup inp _)
  obtain ⟨hvt, hvd⟩ := get_notmem_take_drop (roundList inp n) hnd k hk
  have hvL : (roundList inp n).get ⟨k, hk⟩ ∈ roundList inp n :=
    (roundList inp n).get_mem _ _
  have hvTodo : todoB inp (wmparcState inp n)
      ((roundList inp n).get ⟨k, hk⟩) = true :=
    mem_todoList.1 (mem_sortDesc.1
      (show (roundList inp n).get ⟨k, hk⟩ ∈
        sortDesc inp.nd (todoList inp (wmparcState inp n)) from hvL))
  have hvdone : (wmparcState inp n).done ((roundList inp n).get ⟨k, hk⟩) = false :=
    (todoB_eq_true.1 hvTodo).2
  have hmido : (midRound inp n k).outp ((roundList inp n).get ⟨k, hk⟩) =
      (wmparcState inp n).outp ((roundList inp n).get ⟨k, hk⟩) := by
    rw [midRound]
    exact roundFold_outp_notmem inp _ _ hvt
  have hS0 : (wmparcState inp n).outp ((roundList inp n).get ⟨k, hk⟩) = 0 :=
    (wmInv_state inp n).2.2.1 _ hvdone
  have hfold : (roundList inp n).foldl (voxStep inp) (wmparcState inp n) =
      ((roundList inp n).drop (k + 1)).foldl (voxStep inp)
        (voxStep inp (midRound inp n k) ((roundList inp n).get ⟨k, hk⟩)) := by
    conv_lhs => rw [← hL]
    rw [List.foldl_append, List.foldl_cons, midRound]
  refine ⟨?_, ?_, ?_⟩
  · rw [hstep, hfold]
    refine (roundFold_done_iff inp _ _ _).2 (Or.inl ?_)
    rw [voxStep_done, Function.update_same]
  · rw [hstep, hfold]
    exact roundFold_log_mono inp _ _ (voxStep_msg_of_neg inp _ _ hFail)
  · intro hneg
    rw [hstep, hfold, roundFold_outp_notmem inp _ _ hvd,
      voxStep_outp_of_negProbes inp _ _ hneg, hmido, hS0]

/-- C5 (counterexample to the claim as stated): on `c5bad` the wavefront voxel
`x = 1` ends its scan with `max_dist = -1/2 < 0`, so by the code's own
detector no valid labeled neighbor was found and the diagnostic is printed —
yet the scan copied label 7 from the DONE voxel `x = 0` (distance `-1/2 > -1`),
so the output value does not stay 0. -/
theorem claim_C5_counterexample :
    roundList c5bad 0 = [((1 : Fin 3), 0, 0)] ∧
    scanMax c5bad (wmparcState c5bad 0) ((1 : Fin 3), 0, 0) < 0 ∧
    Msg.noNb 1 0 0 ∈ (wmparcState c5bad 1).log ∧
    outAt (generate_wmparc c5bad 2) ((1 : Fin 3), 0, 0) = some 7 ∧
    ((7 : ℤ) ≠ 0) := by
  refine ⟨by decide, by decide, by decide, by decide, by decide⟩

/-- C5 (witness): on `c5in` the single wavefront voxel's only DONE neighbor
carries distance `-5 ≤ -1`; the scan finds nothing, the voxel ends DONE with
value 0 and the no-neighbor diagnostic is logged. -/
theorem claim_C5_witness :
    (¬ allDone c5in (wmparcState c5in 0)) ∧
    0 < (roundList c5in 0).length ∧
    scanMax c5in (midRound c5in 0 0) ((roundList c5in 0).get ⟨0, by decide⟩) < 0 ∧
    negProbes c5in (midRound c5in 0 0) ((roundList c5in 0).get ⟨0, by decide⟩) ∧
    ((wmparcState c5in 1).done ((roundList c5in 0).get ⟨0, by decide⟩) = true ∧
     Msg.noNb ((((roundList c5in 0).get ⟨0, by decide⟩).1 : ℕ) : ℤ)
       ((((roundList c5in 0).get ⟨0, by decide⟩).2.1 : ℕ) : ℤ)
       ((((roundList c5in 0).get ⟨0, by decide⟩).2.2 : ℕ) : ℤ) ∈
       (wmparcState c5in 1).log ∧
     (wmparcState c5in 1).outp ((roundList c5in 0).get ⟨0, by decide⟩) = 0) :=
  ⟨by decide, by decide, by decide, by decide, by
    obtain ⟨h1, h2, h3⟩ := claim_C5_theorem c5in 0 0 (by decide) (by decide)
      (by decide)
    exact ⟨h1, h2, h3 (by decide)⟩⟩

/-- C10 (confirmed): every voxel outside the processing region (outside the
inclusion mask, or with distance value not strictly between 0 and 1) whose seed
label is 0 holds 0 in the engine's output: rounds write only wavefront voxels,
wavefronts lie inside the region, and the initialization wrote only seeds. -/
theorem claim_C10_theorem (inp : WmInput nx ny nz) (fuel : ℕ) (v : Idx nx ny nz)
    (z : ℤ) (hproc : procB inp v = false) (hlab : inp.lab v = 0)
    (hout : outAt (generate_wmparc inp fuel) v = some z) : z = 0 := by
  rw [generate_wmparc] at hout
  by_cases hA : allDone inp (wmparcState inp fuel)
  · rw [if_pos hA] at hout
    have hz : toInt16 ((wmparcState inp fuel).outp v) = z := by
      simpa [outAt] using hout
    have hdone : (wmparcState inp fuel).done v = false := by
      cases hdd : (wmparcState inp fuel).done v
      · rfl
      · rcases (wmInv_state inp fuel).2.2.2 v hdd with h | h
        · rw [hlab] at h
          exact absurd h (lt_irrefl 0)
        · rw [hproc] at h
          simp at h
    rw [(wmInv_state inp fuel).2.2.1 v hdone] at hz
    rw [← hz]
    decide
  · rw [if_neg hA] at hout
    simp [outAt] at hout

/-- C10 (witness): the voxel outside the inclusion mask of `c10in` with seed 0
holds 0 in the output. -/
theorem claim_C10_witness :
    procB c10in ((1 : Fin 2), 0, 0) = false ∧
    c10in.lab ((1 : Fin 2), 0, 0) = 0 ∧
    outAt (generate_wmparc c10in 1) ((1 : Fin 2), 0, 0) = some 0 ∧
    (0 : ℤ) = 0 :=
  ⟨by decide, by decide, by decide,
    claim_C10_theorem c10in 1 ((1 : Fin 2), 0, 0) 0 (by decide) (by decide)
      (by decide)⟩

/-! ## Claims about LabelMerger (union mode) -/

/-- C8 (amended): in union mode the output voxel is the `int8` narrowing of
B's value where B > 0 and of A's value elsewhere; when both samples fit the
`int8` range the narrowing is the identity, and the output equals B's value
where B > 0 and A's value everywhere else, exactly as claimed. -/
theorem claim_C8_theorem {α : Type} (in1 in2 : α → ℕ) (v : α)
    (h1 : in1 v ≤ 127) (h2 : in2 v ≤ 127) :
    merge_labels_union in1 in2 v =
      if 0 < in2 v then (in2 v : ℤ) else (in1 v : ℤ) := by
  rw [merge_labels_union]
  by_cases h : 0 < in2 v
  · rw [if_pos h, if_pos h, toInt8_small h2]
  · rw [if_neg h, if_neg h, toInt8_small h1]

/-- C8 (counterexample to the claim as stated): the output array is `np.int8`,
so A's value 200 (where B = 0) is stored as `-56`, not 200. -/
theorem claim_C8_counterexample :
    merge_labels_union (fun _ : Idx 1 1 1 => 200) (fun _ => 0)
      ((0 : Fin 1), 0, 0) = -56 ∧
    ((fun _ : Idx 1 1 1 => (0 : ℕ)) ((0 : Fin 1), 0, 0) = 0) ∧
    ((-56 : ℤ) ≠ 200) := by
  refine ⟨by decide, by decide, by decide⟩

/-- C8 (witness): small labels 3 and 5 merge exactly — B wins where B > 0. -/
theorem claim_C8_witness :
    ((fun _ : Idx 1 1 1 => (3 : ℕ)) ((0 : Fin 1), 0, 0) ≤ 127 ∧
     (fun _ : Idx 1 1 1 => (5 : ℕ)) ((0 : Fin 1), 0, 0) ≤ 127) ∧
    merge_labels_union (fun _ : Idx 1 1 1 => 3) (fun _ => 5)
      ((0 : Fin 1), 0, 0) = 5 :=
  ⟨⟨by decide, by decide⟩,
    (claim_C8_theorem (fun _ : Idx 1 1 1 => 3) (fun _ => 5) ((0 : Fin 1), 0, 0)
      (by decide) (by decide)).trans (by decide)⟩

/-! ## Claims about the LabelFilterEngine -/

theorem filterGrouped_fold_range {α : Type} (in_data : α → ℕ)
    (fixed_id : Option (List ℕ)) :
    ∀ (gs : List (List ℕ)) (acc : α → ℕ) (v : α),
    (gs.foldl (fun new_data labels_list => fun v =>
        if in_data v ∈ labels_list then groupRep fixed_id labels_list
        else new_data v) acc) v = acc v ∨
      ∃ g ∈ gs, (gs.foldl (fun new_data labels_list => fun v =>
        if in_data v ∈ labels_list then groupRep fixed_id labels_list
        else new_data v) acc) v = groupRep fixed_id g := by
  intro gs
  induction gs with
  | nil => exact fun _ _ => Or.inl rfl
  | cons g gs ih =>
    intro acc v
    rw [List.foldl_cons]
    rcases ih (fun v => if in_data v ∈ g then groupRep fixed_id g else acc v) v
      with h | ⟨g2, hg2, h⟩
    · by_cases hm : in_data v ∈ g
      · exact Or.inr ⟨g, List.mem_cons_self g gs, by rw [h, if_pos hm]⟩
      · exact Or.inl (by rw [h, if_neg hm])
    · exact Or.inr ⟨g2, List.mem_cons_of_mem g hg2, h⟩

theorem filterGrouped_nogroup {α : Type} (in_data : α → ℕ)
    (fixed_id : Option (List ℕ)) :
    ∀ (gs : List (List ℕ)) (acc : α → ℕ) (v : α), acc v = 0 →
    (∀ g ∈ gs, in_data v ∉ g) →
    (gs.foldl (fun new_data labels_list => fun v =>
        if in_data v ∈ labels_list then groupRep fixed_id labels_list
        else new_data v) acc) v = 0 := by
  intro gs
  induction gs with
  | nil => exact fun _ _ h _ => h
  | cons g gs ih =>
    intro acc v hacc hno
    rw [List.foldl_cons]
    exact ih _ v (by rw [if_neg (hno g (List.mem_cons_self g gs))]; exact hacc)
      (fun g2 hg2 => hno g2 (List.mem_cons_of_mem g hg2))

theorem filterMapped_fold_range {α : Type} (new_data : α → ℕ) :
    ∀ (ps : List (ℕ × ℕ)) (acc : α → ℕ) (v : α),
    (ps.foldl (fun mapped_data p => fun v =>
        if new_data v = p.1 then p.2 else mapped_data v) acc) v = acc v ∨
      ∃ p ∈ ps, (ps.foldl (fun mapped_data p => fun v =>
        if new_data v = p.1 then p.2 else mapped_data v) acc) v = p.2 := by
  intro ps
  induction ps with
  | nil => exact fun _ _ => Or.inl rfl
  | cons p ps ih =>
    intro acc v
    rw [List.foldl_cons]
    rcases ih (fun v => if new_data v = p.1 then p.2 else acc v) v
      with h | ⟨p2, hp2, h⟩
    · by_cases hm : new_data v = p.1
      · exact Or.inr ⟨p, List.mem_cons_self p ps, by rw [h, if_pos hm]⟩
      · exact Or.inl (by rw [h, if_neg hm])
    · exact Or.inr ⟨p2, List.mem_cons_of_mem p hp2, h⟩

theorem filterMapped_zero {α : Type} (new_data : α → ℕ) :
    ∀ (ps : List (ℕ × ℕ)) (acc : α → ℕ) (v : α), acc v = 0 → new_data v = 0 →
    (∀ p ∈ ps, p.1 ≠ 0) →
    (ps.foldl (fun mapped_data p => fun v =>
        if new_data v = p.1 then p.2 else mapped_data v) acc) v = 0 := by
  intro ps
  induction ps with
  | nil => exact fun _ _ h _ _ => h
  | cons p ps ih =>
    intro acc v hacc hnd hno
    rw [List.foldl_cons]
    refine ih _ v ?_ hnd (fun p2 hp2 => hno p2 (List.mem_cons_of_mem p hp2))
    rw [if_neg, hacc]
    rw [hnd]
    exact fun h0 => hno p (List.mem_cons_self p ps) h0.symm

/-- C9 (amended): every output voxel of `filter_labels` is `0`, a group
representative (the fixed id if provided, else the group's first listed id), or
the target of one of the remap pairs — each narrowed by the final
`astype(np.int16)`; and a voxel whose source label belongs to no group maps to
`0` provided no remap pair rewrites the background value `0` itself. -/
theorem claim_C9_theorem {α : Type} (in_data : α → ℕ)
    (include_superlist : List (List ℕ)) (fixed_id : Option (List ℕ))
    (map_pairs_list : Option (List (ℕ × ℕ))) (v : α) :
    (filter_labels in_data include_superlist fixed_id map_pairs_list v = 0 ∨
      (∃ g ∈ include_superlist,
        filter_labels in_data include_superlist fixed_id map_pairs_list v =
          toInt16 (groupRep fixed_id g)) ∨
      (∃ ps, map_pairs_list = some ps ∧ ∃ p ∈ ps,
        filter_labels in_data include_superlist fixed_id map_pairs_list v =
          toInt16 p.2)) ∧
    ((∀ g ∈ include_superlist, in_data v ∉ g) →
      (∀ ps, map_pairs_list = some ps → ∀ p ∈ ps, p.1 ≠ 0) →
      filter_labels in_data include_superlist fixed_id map_pairs_list v = 0) := by
  constructor
  · rw [filter_labels]
    cases map_pairs_list with
    | none =>
      rcases filterGrouped_fold_range in_data fixed_id include_superlist
          (fun _ => 0) v with h | ⟨g, hg, h⟩
      · left
        rw [filterMapped, filterGrouped, h]
        decide
      · right; left
        exact ⟨g, hg, by rw [filterMapped, filterGrouped, h]⟩
    | some ps =>
      rcases filterMapped_fold_range (filterGrouped in_data include_superlist
          fixed_id) ps (filterGrouped in_data include_superlist fixed_id) v
          with h | ⟨p, hp, h⟩
      · rw [filterMapped, h]
        rcases filterGrouped_fold_range in_data fixed_id include_superlist
            (fun _ => 0) v with h2 | ⟨g, hg, h2⟩
        · left
          rw [filterGrouped, h2]
          decide
        · right; left
          exact ⟨g, hg, by rw [filterGrouped, h2]⟩
      · right; right
        exact ⟨ps, rfl, p, hp, by rw [filterMapped, h]⟩
  · intro hno hzero
    rw [filter_labels]
    have hg0 : filterGrouped in_data include_superlist fixed_id v = 0 :=
      filterGrouped_nogroup in_data fixed_id include_superlist (fun _ => 0) v
        rfl hno
    cases map_pairs_list with
    | none => rw [filterMapped, hg0]; decide
    | some ps =>
      rw [filterMapped,
        filterMapped_zero _ ps _ v hg0 hg0 (hzero ps rfl)]
      decide

/-- C9 (counterexample to the claim as stated): with a remap pair whose old id
is `0`, a voxel whose source label 9 belongs to no group comes out as 5, not 0
— and 5 is neither 0 nor a (possibly remapped) group representative of its
voxel. -/
theorem claim_C9_counterexample :
    filter_labels (fun _ : Idx 1 1 1 => 9) [[1]] none (some [(0, 5)])
      ((0 : Fin 1), 0, 0) = 5 ∧
    ((9 : ℕ) ∉ ([1] : List ℕ)) ∧
    ((5 : ℤ) ≠ 0) := by
  refine ⟨by decide, by decide, by decide⟩

/-- C9 (witness): with no remap pair touching 0, the no-group voxel maps to
0. -/
theorem claim_C9_witness :
    (∀ g ∈ [[(1 : ℕ)]], (fun _ : Idx 1 1 1 => (9 : ℕ)) ((0 : Fin 1), 0, 0) ∉ g) ∧
    (∀ ps, (some [((2 : ℕ), (5 : ℕ))] : Option (List (ℕ × ℕ))) = some ps →
      ∀ p ∈ ps, p.1 ≠ 0) ∧
    filter_labels (fun _ : Idx 1 1 1 => 9) [[1]] none (some [(2, 5)])
      ((0 : Fin 1), 0, 0) = 0 :=
  ⟨by decide, by decide,
    (claim_C9_theorem (fun _ : Idx 1 1 1 => 9) [[1]] none (some [(2, 5)])
      ((0 : Fin 1), 0, 0)).2 (by decide) (by decide)⟩

/-! ## Claims about the ShellPartitioner -/

theorem limits_mono {n : ℕ} {i j : ℕ} (h : i ≤ j) : limits n i ≤ limits n j := by
  rw [limits, limits, Rat.mkRat_eq_div, Rat.mkRat_eq_div]
  exact div_le_div_of_nonneg_right (by exact_mod_cast h) (Nat.cast_nonneg n)

theorem shellCond_subsingleton {α : Type} {ndist : α → ℚ} {n : ℕ}
    {mask : Option (α → ℕ)} {i j : ℕ} {v : α}
    (hi : shellCond ndist n mask i v) (hj : shellCond ndist n mask j v) :
    i = j := by
  by_contra hne
  rcases Nat.lt_or_ge i j with h | h
  · linarith [hi.2.1, hj.1, limits_mono (n := n) (show i ≤ j - 1 by omega)]
  · have h2 : j < i := by omega
    linarith [hj.2.1, hi.1, limits_mono (n := n) (show j ≤ i - 1 by omega)]

theorem shellLoop_succ {α : Type} (ndist : α → ℚ) (n : ℕ)
    (mask : Option (α → ℕ)) (s : ℕ) (v : α) :
    shellLoop ndist n mask (s + 1) v =
      if shellCond ndist n mask (s + 1) v then toInt8 (s + 1)
      else shellLoop ndist n mask s v := by
  rw [shellLoop, shellLoop, List.range_succ, List.foldl_append, List.foldl_cons,
    List.foldl_nil]

theorem shellLoop_of_cond {α : Type} (ndist : α → ℚ) (n : ℕ)
    (mask : Option (α → ℕ)) (v : α) :
    ∀ steps i : ℕ, 1 ≤ i → i ≤ steps → shellCond ndist n mask i v →
    shellLoop ndist n mask steps v = toInt8 i := by
  intro steps
  induction steps with
  | zero => intro i h1 h2 _; omega
  | succ s ih =>
    intro i h1 h2 hc
    rw [shellLoop_succ]
    by_cases he : i = s + 1
    · subst he; rw [if_pos hc]
    · rw [if_neg (fun hc2 => he (shellCond_subsingleton hc hc2))]
      exact ih i h1 (by omega) hc

theorem shellLoop_of_nocond {α : Type} (ndist : α → ℚ) (n : ℕ)
    (mask : Option (α → ℕ)) (v : α) :
    ∀ steps : ℕ, (∀ i, 1 ≤ i → i ≤ steps → ¬ shellCond ndist n mask i v) →
    shellLoop ndist n mask steps v = 0 := by
  intro steps
  induction steps with
  | zero => intro _; rfl
  | succ s ih =>
    intro h
    rw [shellLoop_succ, if_neg (h (s + 1) (by omega) le_rfl)]
    exact ih (fun i h1 h2 => h i h1 (by omega))

/-- C7 (amended): `create_shells` forces to 0 every voxel whose distance value
is within the `np.isclose` tolerance of 0 (`|d| ≤ 1e-8`), not only exactly 0;
voxels outside the restricting mask get 0; and an in-mask voxel whose distance
value is farther than the tolerance from 0 and falls in the `i`-th of the `n`
equal-width half-open intervals gets the shell id `i` narrowed to `np.int8` —
exactly `i` whenever `i ≤ 127`. -/
theorem claim_C7_theorem {α : Type} (ndist : α → ℚ) (n_shells : ℕ)
    (mask : Option (α → ℕ)) (v : α) :
    (iscloseZero (ndist v) → create_shells ndist n_shells mask v = 0) ∧
    (∀ m, mask = some m → m v = 0 → create_shells ndist n_shells mask v = 0) ∧
    (∀ i, 1 ≤ i → i ≤ n_shells → shellCond ndist n_shells mask i v →
      ¬ iscloseZero (ndist v) →
      create_shells ndist n_shells mask v = toInt8 i ∧
        (i ≤ 127 → create_shells ndist n_shells mask v = (i : ℤ))) := by
  refine ⟨fun h => ?_, fun m hm h0 => ?_, fun i h1 h2 hc hni => ?_⟩
  · rw [create_shells, if_pos h]
  · rw [create_shells]
    by_cases h : iscloseZero (ndist v)
    · rw [if_pos h]
    · rw [if_neg h]
      refine shellLoop_of_nocond ndist n_shells mask v n_shells
        (fun i hi1 hi2 hc => ?_)
      subst hm
      have := hc.2.2
      omega
  · have he : create_shells ndist n_shells mask v = toInt8 i := by
      rw [create_shells, if_neg hni]
      exact shellLoop_of_cond ndist n_shells mask v n_shells i h1 h2 hc
    exact ⟨he, fun h127 => by rw [he, toInt8_small h127]⟩

/-- C7 (counterexample to the claim as stated): a voxel with the nonzero
distance value `5e-9`, inside interval 1 of 4 and under no mask, should get
shell id 1 per the claim, but `np.isclose(ndist, 0.)` captures it (tolerance
`1e-8`) and the override forces it to 0. -/
theorem claim_C7_counterexample :
    create_shells (fun _ : Idx 1 1 1 => mkRat 1 200000000) 4 none
      ((0 : Fin 1), 0, 0) = 0 ∧
    (mkRat 1 200000000 ≠ 0) ∧
    limits 4 0 ≤ mkRat 1 200000000 ∧
    mkRat 1 200000000 < limits 4 1 ∧
    ((0 : ℤ) ≠ 1) := by
  refine ⟨by decide, by decide, by decide, by decide, by decide⟩

/-- C7 (witness): distance 3/10 with 2 shells lands in interval 1 and gets
shell id 1. -/
theorem claim_C7_witness :
    (1 : ℕ) ≤ 1 ∧ (1 : ℕ) ≤ 2 ∧
    shellCond (fun _ : Idx 1 1 1 => mkRat 3 10) 2 none 1 ((0 : Fin 1), 0, 0) ∧
    (¬ iscloseZero ((fun _ : Idx 1 1 1 => mkRat 3 10) ((0 : Fin 1), 0, 0))) ∧
    create_shells (fun _ : Idx 1 1 1 => mkRat 3 10) 2 none ((0 : Fin 1), 0, 0) = 1 :=
  ⟨by decide, by decide, by decide, by decide,
    ((claim_C7_theorem (fun _ : Idx 1 1 1 => mkRat 3 10) 2 none
      ((0 : Fin 1), 0, 0)).2.2 1 (by decide) (by decide) (by decide)
      (by decide)).2 (by decide)⟩

/-! ## Claims about the DistanceFieldBuilder -/

theorem sqEuclid_self {nx ny nz : ℕ} (v : Idx nx ny nz) : sqEuclid v v = 0 := by
  simp [sqEuclid]

theorem sqEuclid_eq_zero {nx ny nz : ℕ} {v u : Idx nx ny nz}
    (h : sqEuclid v u = 0) : v = u := by
  obtain ⟨a, b, c⟩ := v
  obtain ⟨d, e, f⟩ := u
  simp only [sqEuclid, Int.toNat_eq_zero] at h
  have h1 := sq_nonneg (((a : ℕ) : ℤ) - ((d : ℕ) : ℤ))
  have h2 := sq_nonneg (((b : ℕ) : ℤ) - ((e : ℕ) : ℤ))
  have h3 := sq_nonneg (((c : ℕ) : ℤ) - ((f : ℕ) : ℤ))
  have e1 : (((a : ℕ) : ℤ) - ((d : ℕ) : ℤ)) ^ 2 = 0 :=
    le_antisymm (by linarith) h1
  have e2 : (((b : ℕ) : ℤ) - ((e : ℕ) : ℤ)) ^ 2 = 0 :=
    le_antisymm (by linarith) h2
  have e3 : (((c : ℕ) : ℤ) - ((f : ℕ) : ℤ)) ^ 2 = 0 :=
    le_antisymm (by linarith) h3
  have ha : a = d := Fin.ext (by
    have := sub_eq_zero.1 (sq_eq_zero_iff.1 e1)
    exact_mod_cast this)
  have hb : b = e := Fin.ext (by
    have := sub_eq_zero.1 (sq_eq_zero_iff.1 e2)
    exact_mod_cast this)
  have hc : c = f := Fin.ext (by
    have := sub_eq_zero.1 (sq_eq_zero_iff.1 e3)
    exact_mod_cast this)
  subst ha
  subst hb
  subst hc
  rfl

theorem sqdistEDT_eq_zero_iff {nx ny nz : ℕ} {m : Idx nx ny nz → Bool}
    (hne : ∃ u, m u = true) (v : Idx nx ny nz) :
    sqdistEDT m v = 0 ↔ m v = true := by
  constructor
  · intro h
    rw [sqdistEDT] at h
    cases hmin : ((Finset.univ.filter (fun u => m u = true)).image (sqEuclid v)).min
        with
    | top =>
      exfalso
      rw [Finset.min_eq_top, Finset.image_eq_empty] at hmin
      obtain ⟨u, hu⟩ := hne
      have hmem : u ∈ Finset.univ.filter (fun u => m u = true) :=
        Finset.mem_filter.2 ⟨Finset.mem_univ u, hu⟩
      rw [hmin] at hmem
      exact absurd hmem (Finset.not_mem_empty u)
    | coe k =>
      rw [hmin] at h
      have hk : k = 0 := by simpa [WithTop.untop'] using h
      have hmem := Finset.mem_of_min hmin
      obtain ⟨u, hu, he⟩ := Finset.mem_image.1 hmem
      have hvu : v = u := sqEuclid_eq_zero (by rw [he, hk])
      rw [hvu]
      exact (Finset.mem_filter.1 hu).2
  · intro h
    rw [sqdistEDT]
    have hmem : (0 : ℕ) ∈
        (Finset.univ.filter (fun u => m u = true)).image (sqEuclid v) :=
      Finset.mem_image.2 ⟨v, Finset.mem_filter.2 ⟨Finset.mem_univ v, h⟩,
        sqEuclid_self v⟩
    have hle := Finset.min_le hmem
    cases hmin : ((Finset.univ.filter (fun u => m u = true)).image (sqEuclid v)).min
        with
    | top => rfl
    | coe k =>
      rw [hmin] at hle
      have hk : k = 0 := Nat.le_zero.1 (by exact_mod_cast hle)
      rw [hk]
      rfl

theorem sqrt_natCast_eq_zero {k : ℕ} : Real.sqrt (k : ℝ) = 0 ↔ k = 0 := by
  rw [Real.sqrt_eq_zero (Nat.cast_nonneg k), Nat.cast_eq_zero]

/-- C6 (amended): for every non-empty, disjoint origin and destination masks of
one grid shape, every sample of `norm_dist_map` is a defined value in `[0, 1]`,
equal to 0 exactly at origin-mask voxels and to 1 exactly at destination-mask
voxels.  (Disjointness is necessary: at a voxel in both masks the quotient is
`0/0 = NaN`; non-emptiness is what makes the distance transform meaningful.) -/
theorem claim_C6_theorem {nx ny nz : ℕ} (orig dest : Idx nx ny nz → ℕ)
    (h1 : ∃ u, boolMask orig u = true) (h2 : ∃ u, boolMask dest u = true)
    (hdisj : ∀ u, ¬ (boolMask orig u = true ∧ boolMask dest u = true))
    (v : Idx nx ny nz) :
    ∃ q : ℝ, norm_dist_map orig dest v = some q ∧ 0 ≤ q ∧ q ≤ 1 ∧
      (q = 0 ↔ boolMask orig v = true) ∧ (q = 1 ↔ boolMask dest v = true) := by
  have hnot : ¬ (sqdistEDT (boolMask orig) v = 0 ∧
      sqdistEDT (boolMask dest) v = 0) := fun ⟨e1, e2⟩ =>
    hdisj v ⟨(sqdistEDT_eq_zero_iff h1 v).1 e1, (sqdistEDT_eq_zero_iff h2 v).1 e2⟩
  rw [norm_dist_map, if_neg hnot]
  have ha : (0 : ℝ) ≤ Real.sqrt (sqdistEDT (boolMask orig) v : ℝ) :=
    Real.sqrt_nonneg _
  have hb : (0 : ℝ) ≤ Real.sqrt (sqdistEDT (boolMask dest) v : ℝ) :=
    Real.sqrt_nonneg _
  have hab : (0 : ℝ) < Real.sqrt (sqdistEDT (boolMask orig) v : ℝ) +
      Real.sqrt (sqdistEDT (boolMask dest) v : ℝ) := by
    rcases lt_or_eq_of_le ha with h | h
    · linarith
    · rcases lt_or_eq_of_le hb with h' | h'
      · linarith
      · exact absurd ⟨sqrt_natCast_eq_zero.1 h.symm,
          sqrt_natCast_eq_zero.1 h'.symm⟩ hnot
  refine ⟨_, rfl, div_nonneg ha hab.le, (div_le_one hab).2 (by linarith), ?_, ?_⟩
  · rw [div_eq_zero_iff]
    constructor
    · rintro (h | h)
      · exact (sqdistEDT_eq_zero_iff h1 v).1 (sqrt_natCast_eq_zero.1 h)
      · exact absurd h (ne_of_gt hab)
    · intro h
      exact Or.inl (by
        rw [sqrt_natCast_eq_zero, sqdistEDT_eq_zero_iff h1 v]
        exact h)
  · rw [div_eq_one_iff_eq (ne_of_gt hab)]
    constructor
    · intro h
      have hb0 : Real.sqrt (sqdistEDT (boolMask dest) v : ℝ) = 0 := by linarith
      exact (sqdistEDT_eq_zero_iff h2 v).1 (sqrt_natCast_eq_zero.1 hb0)
    · intro h
      have hb0 : sqdistEDT (boolMask dest) v = 0 :=
        (sqdistEDT_eq_zero_iff h2 v).2 h
      rw [hb0]
      simp

/-- C6 (counterexample to the claim as stated): when the origin and destination
masks overlap, the voxel in both masks has `dist_orig = dist_dest = 0` and its
sample is `0/0 = NaN` — not a value in `[0, 1]`, and in particular not the 0
required at an origin-mask voxel. -/
theorem claim_C6_counterexample :
    norm_dist_map (fun _ : Idx 1 1 1 => 1) (fun _ : Idx 1 1 1 => 1)
      ((0 : Fin 1), 0, 0) = none ∧
    boolMask (fun _ : Idx 1 1 1 => (1 : ℕ)) ((0 : Fin 1), 0, 0) = true := by
  constructor
  · rw [norm_dist_map, if_pos]
    exact ⟨by decide, by decide⟩
  · decide

/-- C6 (witness): disjoint singleton masks on a 2×1×1 grid satisfy every
hypothesis and get a well-formed normalized distance sample. -/
theorem claim_C6_witness :
    (∃ u, boolMask c6orig u = true) ∧ (∃ u, boolMask c6dest u = true) ∧
    (∀ u, ¬ (boolMask c6orig u = true ∧ boolMask c6dest u = true)) ∧
    (∃ q : ℝ, norm_dist_map c6orig c6dest ((0 : Fin 2), 0, 0) = some q ∧
      0 ≤ q ∧ q ≤ 1 ∧ (q = 0 ↔ boolMask c6orig ((0 : Fin 2), 0, 0) = true) ∧
      (q = 1 ↔ boolMask c6dest ((0 : Fin 2), 0, 0) = true)) :=
  ⟨by decide, by decide, by decide,
    claim_C6_theorem c6orig c6dest (by decide) (by decide) (by decide) _⟩

end Bullseye


